import Mathlib

/-!
# Client call lifecycle of ugrpc: UnaryFuture

A shallow embedding of `grpc/src/ugrpc/client/rpc.cpp`, and of the deep JSON
document of `universal/src/formats/json/serialize_benchmark.cpp`.

The future holds a pointer to the call state (`impl::RpcData`), or null once the
data has been cleared.  Everything the code does to its collaborators (the
invocation guard, the wait primitives, the result finalizer, the statistics
scope) is recorded, in program order, in a log of events; the status a wait
yields is decided by the transport engine and the scheduler, so it is an
argument of the operation that waits.
-/

namespace ugrpc.client

/-! ## Data model -/

/-- Wait status of `impl::AsyncMethodInvocation::WaitStatus`. -/
inductive WaitStatus where
  | kOk
  | kError
  | kCancelled
  | kDeadline
  deriving DecidableEq, Repr

/-- Result of a bounded wait, `engine::FutureStatus`. -/
inductive FutureStatus where
  | kReady
  | kTimeout
  | kCancelled
  deriving DecidableEq, Repr

/-- An `engine::Deadline`: `none` is the unreachable deadline `engine::Deadline{}`,
`some t` a deadline at time point `t`. -/
abbrev Deadline := Option Nat

/-- A `grpc::Status`: the status code (0 is OK) and the error message. -/
structure Status where
  error_code : Nat
  error_message : String
  deriving DecidableEq, Repr

/-- The predicate `grpc::Status::ok()`. -/
def Status.ok (s : Status) : Bool := s.error_code == 0

/-- The parsed protocol-level status of a finished call, if any. -/
abbrev ParsedGStatus := Option String

/-- Address of an `impl::RpcData` (the call state). -/
abbrev DataId := Nat

/-- The parts of `impl::RpcData` that `rpc.cpp` reads: the call name and, through
`GetFinishAsyncMethodInvocation()`, the status and parsed status the finish
operation holds once the call has completed. -/
structure RpcData where
  call_name : String
  status : Status
  parsed_gstatus : ParsedGStatus
  deriving DecidableEq, Repr

/-- Exceptions thrown to the caller of `Get`. -/
inductive RpcError where
  | RpcCancelledError (call_name : String) (stage : String)
  | ErrorWithStatus (call_name : String) (code : Nat) (message : ParsedGStatus)
  deriving DecidableEq, Repr

/-- One call made by the code of `rpc.cpp` on a collaborator, or one step on the
future itself. -/
inductive Event where
  | GuardAcquire (data : DataId)
  | GuardDisarm (data : DataId)
  | GuardRelease (data : DataId) (armed : Bool)
  | WaitUntil (data : DataId) (deadline : Deadline) (result : WaitStatus)
  | Wait (data : DataId) (result : WaitStatus)
  | ClearData (data : DataId)
  | ProcessFinishResult (data : DataId) (wait_status : WaitStatus) (status : Status)
      (parsed_gstatus : ParsedGStatus) (isExplicitWait : Bool)
  | OnSuccess (data : DataId)
  | OnError (data : DataId) (code : Nat)
  | OnCancelled (data : DataId)
  | IsReady (data : Option DataId) (result : Bool)
  deriving DecidableEq, Repr

/-- The world outside the future: the call states by address and the log of
everything done so far. -/
structure World where
  heap : DataId → RpcData
  log : List Event

/-- Append one event to the log. -/
def World.emit (w : World) (e : Event) : World :=
  { w with log := w.log ++ [e] }

/-- How a call ends: it returns a value, an exception propagates out of it, or a
failed `UINVARIANT` / `UASSERT` aborts the program. -/
inductive Outcome (α : Type) where
  | returned (a : α)
  | raised (e : RpcError)
  | aborted (msg : String)
  deriving DecidableEq, Repr

/-- The future: `impl_.GetData()` is the address of the call state, or null. -/
structure UnaryFuture where
  impl_ : Option DataId
  deriving DecidableEq, Repr

/-- What a member function leaves behind: its outcome, the future, the world. -/
structure Ret (α : Type) where
  out : Outcome α
  fut : UnaryFuture
  world : World

/-- The future is Armed: it still holds its call state. -/
def UnaryFuture.Armed (self : UnaryFuture) : Prop := self.impl_.isSome = true

/-- The future is Finalized: its call state has been cleared. -/
def UnaryFuture.Finalized (self : UnaryFuture) : Prop := self.impl_ = none

instance (self : UnaryFuture) : Decidable self.Armed := by
  unfold UnaryFuture.Armed; infer_instance

instance (self : UnaryFuture) : Decidable self.Finalized := by
  unfold UnaryFuture.Finalized; infer_instance

/-! ## Collaborators that are not part of `rpc.cpp` -/

/-- Modelled from the spec: `impl::WaitUntil` is declared outside `rpc.cpp`.
`WaitUntil(operation, context, deadline) -> {kOk, kError, kCancelled, kDeadline}`
blocks until the engine signals completion, the task is cancelled or the
deadline elapses.  Which of these happens is decided outside the program:
`observed` is the status this wait yields.  The call is logged. -/
def WaitUntil (data : DataId) (deadline : Deadline) (observed : WaitStatus)
    (w : World) : WaitStatus × World :=
  (observed, w.emit (.WaitUntil data deadline observed))

/-- Modelled from the spec: `impl::Wait` is declared outside `rpc.cpp`.  It is the
wait without a deadline; `observed` is the status it yields.  The call is
logged. -/
def Wait (data : DataId) (observed : WaitStatus) (w : World) : WaitStatus × World :=
  (observed, w.emit (.Wait data observed))

/-- Modelled from the spec: `impl::ProcessFinishResult` (the ResultFinalizer) is
declared outside `rpc.cpp`.  Section 4.5: on `kOk` with a success status it marks
the call successful in statistics and returns; on `kOk`/`kError` with a failure
status it marks failure in statistics, categorized by status code, and raises a
typed RPC error carrying the call name, status code and parsed status message;
the guard-driven finalization (`isExplicitWait = false`) must not raise.
Section 4.3 treats `kOk` and `kError` alike (they "raise a typed error or return
success") and has the destructor finalize with the existing status of the call,
so the translation is decided by the status, whatever the wait outcome handed
in.  The call itself is logged first. -/
def ProcessFinishResult (data : DataId) (wait_status : WaitStatus) (status : Status)
    (parsed_gstatus : ParsedGStatus) (isExplicitWait : Bool) (w : World) :
    Except RpcError Unit × World :=
  let w := w.emit (.ProcessFinishResult data wait_status status parsed_gstatus isExplicitWait)
  if status.ok then
    (.ok (), w.emit (.OnSuccess data))
  else
    let w := w.emit (.OnError data status.error_code)
    if isExplicitWait then
      (.error (.ErrorWithStatus (w.heap data).call_name status.error_code parsed_gstatus), w)
    else
      (.ok (), w)

/-! ## `UnaryFuture` -/

/-- The constructor `UnaryFuture::UnaryFuture(impl::RpcData& data)`: `impl_(data)`. -/
def UnaryFuture.new (data : DataId) : UnaryFuture := ⟨some data⟩

/-- The step `impl_.ClearData()`. -/
def UnaryFuture.ClearData (_self : UnaryFuture) : UnaryFuture := ⟨none⟩

/-- The member `UnaryFuture::Get(engine::Deadline deadline)`.  `observed` is the
status the wait inside yields.  The guard is released when the scope is left,
by return or by exception. -/
def UnaryFuture.GetDeadline (self : UnaryFuture) (deadline : Deadline)
    (observed : WaitStatus) (w : World) : Ret FutureStatus :=
  match self.impl_ with
  | none => ⟨.aborted "'Get' should not be called after readiness", self, w⟩
  | some data =>
    let w := w.emit (.GuardAcquire data)
    let (wait_status, w) := WaitUntil data deadline observed w
    let (self, w, armed) :=
      if wait_status = .kDeadline then
        (self, w.emit (.GuardDisarm data), false)
      else
        (self.ClearData, w.emit (.ClearData data), true)
    match wait_status with
    | .kOk | .kError =>
      let (r, w) := ProcessFinishResult data wait_status (w.heap data).status
        (w.heap data).parsed_gstatus true w
      let w := w.emit (.GuardRelease data armed)
      match r with
      | .ok () => ⟨.returned .kReady, self, w⟩
      | .error e => ⟨.raised e, self, w⟩
    | .kCancelled =>
      let w := w.emit (.OnCancelled data)
      ⟨.returned .kCancelled, self, w.emit (.GuardRelease data armed)⟩
    | .kDeadline =>
      ⟨.returned .kTimeout, self, w.emit (.GuardRelease data armed)⟩

/-- The member `UnaryFuture::Get()`.  `observed` is the status the unbounded wait
yields.  `UASSERT_MSG` is taken as checked, as in a debug build: when it fails,
the program aborts. -/
def UnaryFuture.Get (self : UnaryFuture) (observed : WaitStatus) (w : World) : Ret Unit :=
  match self.impl_ with
  | none => ⟨.aborted "'Get' should not be called after readiness", self, w⟩
  | some data =>
    let r := self.GetDeadline none observed w
    match r.out with
    | .aborted msg => ⟨.aborted msg, r.fut, r.world⟩
    | .raised e => ⟨.raised e, r.fut, r.world⟩
    | .returned result =>
      if result = .kTimeout then
        ⟨.aborted "kTimeout has happened for infinite timeout", r.fut, r.world⟩
      else if result = .kCancelled then
        if r.fut.impl_.isSome then
          ⟨.aborted "Data should be cleaned up before RpcCancelledError generation",
            r.fut, r.world⟩
        else
          ⟨.raised (.RpcCancelledError (r.world.heap data).call_name "Get()"), r.fut, r.world⟩
      else
        ⟨.returned (), r.fut, r.world⟩

/-- The destructor `UnaryFuture::~UnaryFuture() noexcept`.  `observed` is the
status the wait without deadline yields, when the destructor waits.  An
exception leaving a `noexcept` function terminates the program. -/
def UnaryFuture.Destroy (self : UnaryFuture) (observed : WaitStatus) (w : World) : Ret Unit :=
  match self.impl_ with
  | none => ⟨.returned (), self, w⟩
  | some data =>
    let w := w.emit (.GuardAcquire data)
    let (wait_status, w) := Wait data observed w
    let (r, w) := ProcessFinishResult data wait_status (w.heap data).status
      (w.heap data).parsed_gstatus false w
    let w := w.emit (.GuardRelease data true)
    match r with
    | .ok () => ⟨.returned (), self, w⟩
    | .error _ => ⟨.aborted "std::terminate", self, w⟩

/-- A run of `Get(deadline)` calls on one future, each given with its deadline and
the status its wait yields.  The caller catches what a call raises; an abort
ends the program, so the calls after it do not run. -/
def UnaryFuture.Gets (self : UnaryFuture) : List (Deadline × WaitStatus) → World → Ret Unit
  | [], w => ⟨.returned (), self, w⟩
  | (deadline, observed) :: rest, w =>
    let r := self.GetDeadline deadline observed w
    match r.out with
    | .aborted msg => ⟨.aborted msg, r.fut, r.world⟩
    | _ => r.fut.Gets rest r.world

/-- A lifetime of a future: a run of `Get(deadline)` calls, then its destruction. -/
def UnaryFuture.Lifetime (self : UnaryFuture) (gets : List (Deadline × WaitStatus))
    (observed : WaitStatus) (w : World) : Ret Unit :=
  let r := self.Gets gets w
  match r.out with
  | .aborted msg => ⟨.aborted msg, r.fut, r.world⟩
  | _ => r.fut.Destroy observed r.world

/-! ## Observations on the log -/

/-- No `Get` is issued after a terminal outcome: every wait but the last one of
the run yields `kDeadline`. -/
def NoGetAfterTerminal : List (Deadline × WaitStatus) → Bool
  | [] => true
  | (_, observed) :: rest =>
    (rest.isEmpty || observed == .kDeadline) && NoGetAfterTerminal rest

/-- A wait on the finish operation of call `data` that consumed a non-deadline
outcome. -/
def Event.isTerminalWait (data : DataId) : Event → Bool
  | .WaitUntil d _ r => d == data && r != .kDeadline
  | .Wait d r => d == data && r != .kDeadline
  | _ => false

/-- A call of `ProcessFinishResult` on call `data`. -/
def Event.isProcessFinishResult (data : DataId) : Event → Bool
  | .ProcessFinishResult d _ _ _ _ => d == data
  | _ => false

/-- An `OnCancelled` record on the statistics scope of call `data`. -/
def Event.isOnCancelled (data : DataId) : Event → Bool
  | .OnCancelled d => d == data
  | _ => false

/-- An `OnSuccess` record on the statistics scope of call `data`. -/
def Event.isOnSuccess (data : DataId) : Event → Bool
  | .OnSuccess d => d == data
  | _ => false

/-- An `OnError` record on the statistics scope of call `data`. -/
def Event.isOnError (data : DataId) : Event → Bool
  | .OnError d _ => d == data
  | _ => false

/-- A finalization step of call `data`: a `ProcessFinishResult` call or an
`OnCancelled` record. -/
def Event.isFinalization (data : DataId) (e : Event) : Bool :=
  e.isProcessFinishResult data || e.isOnCancelled data

/-- A statistics callback on the scope of call `data`. -/
def Event.isStatistics (data : DataId) (e : Event) : Bool :=
  e.isOnSuccess data || e.isOnError data || e.isOnCancelled data

/-- The statistics callbacks the scope of call `data` has received, in order. -/
def World.statistics (w : World) (data : DataId) : List Event :=
  w.log.filter (Event.isStatistics data)

/-- The usage error of `Get` after readiness: both forms of `Get` abort on the
check, whatever the deadline and whatever a wait would yield, and leave the
future and the world as they are. -/
def UsageError (self : UnaryFuture) (w : World) : Prop :=
  (∀ deadline observed,
    (self.GetDeadline deadline observed w).out
        = .aborted "'Get' should not be called after readiness"
      ∧ (self.GetDeadline deadline observed w).fut = self
      ∧ (self.GetDeadline deadline observed w).world.log = w.log) ∧
  (∀ observed,
    (self.Get observed w).out = .aborted "'Get' should not be called after readiness"
      ∧ (self.Get observed w).fut = self
      ∧ (self.Get observed w).world.log = w.log)

/-- A sample world: every address holds the call `svc/Method`, finished with
status code `code`; nothing logged yet. -/
def sampleWorld (code : Nat) : World :=
  ⟨fun _ => ⟨"svc/Method", ⟨code, ""⟩, none⟩, []⟩

/-! ## `IsReady`, move assignment -/

/-- Modelled from the spec: the completion state of the finish operation of a
call (the AsyncCompletionGuardedOperation of section 3), which "produces exactly
one terminal outcome, observed at most by one waiter": not signalled by the
engine yet; signalled, with its raw completion status, and not observed yet; or
observed by a waiter. -/
inductive Completion where
  | pending
  | signalled (ok : Bool)
  | observed
  deriving DecidableEq, Repr

/-- The finish operations, by call. -/
abbrev Operations := DataId → Completion

/-- Modelled from the spec: what a poll of the operation reports, whether a
completion is there to be observed. -/
def Completion.IsReady : Completion → Bool
  | .signalled _ => true
  | _ => false

/-- Modelled from the spec (section 4.2): what a wait on the operation observes,
and the state it leaves.  A completion that has been signalled is observed, as
`kOk` or `kError` by its raw status, and is consumed by that.  Otherwise the wait
blocks and ends the way `blocked` says, which the engine and the scheduler
decide: a completion signalled meanwhile is observed and consumed; a
cancellation or an elapsed deadline leaves the state untouched. -/
def Completion.Wait (c : Completion) (blocked : WaitStatus) : WaitStatus × Completion :=
  match c with
  | .signalled ok => (if ok then .kOk else .kError, .observed)
  | c =>
    match blocked with
    | .kOk => (blocked, .observed)
    | .kError => (blocked, .observed)
    | .kCancelled => (blocked, c)
    | .kDeadline => (blocked, c)

/-- The member `UnaryFuture::IsReady() const noexcept`, which returns
`impl_.IsReady()`.  Modelled from the spec: `impl_.IsReady()` is declared outside
`rpc.cpp`.  It is a "non-blocking poll" that "peeks completion without consuming
it", on the finish operation of the call state the future holds.  On a cleared
call state it fails: "once cleared, no further operation may reference it", which
"is enforced as a checked precondition, not a silent no-op" (section 3; the spec
gives no text for the failure).  The call is logged; the result carries the
operations as the call leaves them. -/
def UnaryFuture.IsReady (self : UnaryFuture) (ops : Operations) (w : World) :
    Ret Bool × Operations :=
  match self.impl_ with
  | none => (⟨.aborted "IsReady: the call state has been cleared", self, w⟩, ops)
  | some data =>
    (⟨.returned (ops data).IsReady, self,
      w.emit (.IsReady (some data) (ops data).IsReady)⟩, ops)

/-- A run of `n` calls of `IsReady()` on one future.  An abort ends the program,
so the calls after it do not run. -/
def UnaryFuture.IsReadys (self : UnaryFuture) : Nat → Operations → World →
    Ret Unit × Operations
  | 0, ops, w => (⟨.returned (), self, w⟩, ops)
  | n + 1, ops, w =>
    match (self.IsReady ops w).1.out with
    | .aborted msg => (⟨.aborted msg, (self.IsReady ops w).1.fut, (self.IsReady ops w).1.world⟩,
        (self.IsReady ops w).2)
    | _ => (self.IsReady ops w).1.fut.IsReadys n (self.IsReady ops w).2
        (self.IsReady ops w).1.world

/-- The wait of a `Get` on the finish operation of the call the future holds: the
status it observes and the operations after it.  A future without call state
does not get to wait. -/
def Operations.WaitFor (ops : Operations) (self : UnaryFuture) (blocked : WaitStatus) :
    WaitStatus × Operations :=
  match self.impl_ with
  | none => (blocked, ops)
  | some data =>
    (((ops data).Wait blocked).1,
      fun d => if d = data then ((ops data).Wait blocked).2 else ops d)

/-- The member `Get(deadline)` with its wait decided by the state of the finish
operation. -/
def UnaryFuture.GetDeadlineOn (self : UnaryFuture) (deadline : Deadline)
    (blocked : WaitStatus) (ops : Operations) (w : World) :
    Ret FutureStatus × Operations :=
  (self.GetDeadline deadline (ops.WaitFor self blocked).1 w, (ops.WaitFor self blocked).2)

/-- The member `Get()` with its wait decided by the state of the finish
operation. -/
def UnaryFuture.GetOn (self : UnaryFuture) (blocked : WaitStatus) (ops : Operations)
    (w : World) : Ret Unit × Operations :=
  (self.Get (ops.WaitFor self blocked).1 w, (ops.WaitFor self blocked).2)

/-- The claim on `IsReady` in its words, for a run of `n` calls on a future: the
calls are made and return; they leave the future as it was, the completion of
every operation unconsumed and the statistics of every call as they were; and a
following `Get(deadline)` and a following `Get()` end as they do without the
calls: same outcome, same future, same operations after, same events logged. -/
def IsReadyPeeks (self : UnaryFuture) (n : Nat) (deadline : Deadline)
    (blocked : WaitStatus) (ops : Operations) (w : World) : Prop :=
  (self.IsReadys n ops w).1.out = .returned () ∧
  (self.IsReadys n ops w).1.fut = self ∧
  (self.IsReadys n ops w).2 = ops ∧
  (∀ d, (self.IsReadys n ops w).1.world.statistics d = w.statistics d) ∧
  (∃ (out : Outcome FutureStatus) (fut : UnaryFuture) (after : Operations)
      (events : List Event),
    self.GetDeadlineOn deadline blocked ops w
      = (⟨out, fut, ⟨w.heap, w.log ++ events⟩⟩, after) ∧
    (self.IsReadys n ops w).1.fut.GetDeadlineOn deadline blocked (self.IsReadys n ops w).2
        (self.IsReadys n ops w).1.world
      = (⟨out, fut, ⟨w.heap, (self.IsReadys n ops w).1.world.log ++ events⟩⟩, after)) ∧
  (∃ (out : Outcome Unit) (fut : UnaryFuture) (after : Operations) (events : List Event),
    self.GetOn blocked ops w = (⟨out, fut, ⟨w.heap, w.log ++ events⟩⟩, after) ∧
    (self.IsReadys n ops w).1.fut.GetOn blocked (self.IsReadys n ops w).2
        (self.IsReadys n ops w).1.world
      = (⟨out, fut, ⟨w.heap, (self.IsReadys n ops w).1.world.log ++ events⟩⟩, after))

/-- Address of a `UnaryFuture` object. -/
abbrev FutureAddr := Nat

/-- The program state around a move assignment: the futures by address, the
local `for_destruction` of `operator=` while it is alive, and the world. -/
structure Frame where
  futures : FutureAddr → UnaryFuture
  for_destruction : Option UnaryFuture
  world : World

/-- Store a future at an address. -/
def Frame.setFuture (futures : FutureAddr → UnaryFuture) (p : FutureAddr)
    (f : UnaryFuture) : FutureAddr → UnaryFuture :=
  fun q => if q = p then f else futures q

/-- Modelled from the spec: the move operations of the future and of its `impl_`
are declared outside `rpc.cpp`.  "Moving a future transfers exclusive ownership
of CallState": the target takes the pointer of the source and the source is left
empty.  The result is the pair (target, source after the move). -/
def UnaryFuture.Move (source : UnaryFuture) : UnaryFuture × UnaryFuture :=
  (⟨source.impl_⟩, ⟨none⟩)

/-- The states `UnaryFuture::operator=(UnaryFuture&& other)` goes through, one
after each step, for `*this` at address `this`: after
`auto for_destruction = std::move(*this)`, after `impl_ = std::move(other.impl_)`,
and after the scope is left, where the local `for_destruction` is destroyed
(`observed` is the status its wait yields, when it waits).  A self assignment
returns at once and goes through no step. -/
def UnaryFuture.MoveAssignSteps (this other : FutureAddr) (observed : WaitStatus)
    (s : Frame) : List Frame :=
  if this = other then []
  else
    let moved := (s.futures this).Move
    let s1 : Frame := ⟨Frame.setFuture s.futures this moved.2, some moved.1, s.world⟩
    let adopted := (s1.futures other).Move
    let s2 : Frame :=
      ⟨Frame.setFuture (Frame.setFuture s1.futures this adopted.1) other adopted.2,
        s1.for_destruction, s1.world⟩
    let s3 : Frame := ⟨s2.futures, none, (moved.1.Destroy observed s2.world).world⟩
    [s1, s2, s3]

/-- The member `UnaryFuture::operator=(UnaryFuture&& other) noexcept`: the state
it leaves, and how it ends (the destructor of `for_destruction` is the one step
that can end the program). -/
def UnaryFuture.MoveAssign (this other : FutureAddr) (observed : WaitStatus)
    (s : Frame) : Outcome Unit × Frame :=
  if this = other then (.returned (), s)
  else
    ((((s.futures this).Move).1.Destroy observed s.world).out,
      ((UnaryFuture.MoveAssignSteps this other observed s).getLast?).getD s)

/-- No two holders, futures at distinct addresses or the local `for_destruction`,
reference the same call state. -/
def Frame.Exclusive (s : Frame) : Prop :=
  (∀ p q d, (s.futures p).impl_ = some d → (s.futures q).impl_ = some d → p = q) ∧
  (∀ fd p d, s.for_destruction = some fd → fd.impl_ = some d →
    (s.futures p).impl_ ≠ some d)

/-- A wait of any kind on the finish operation of call `data`. -/
def Event.isWait (data : DataId) : Event → Bool
  | .WaitUntil d _ _ => d == data
  | .Wait d _ => d == data
  | _ => false

/-- The ordering "the old call is finalized before `*this` adopts the state of
`other`", in the words of the claim: in every state of the assignment in which
`*this` holds the call state `other` held, the wait on the old call `old` and its
`ProcessFinishResult` have been logged. -/
def FinalizedBeforeAdoption (this other : FutureAddr) (observed : WaitStatus)
    (s : Frame) (old : DataId) : Prop :=
  ∀ frame ∈ UnaryFuture.MoveAssignSteps this other observed s,
    (frame.futures this).impl_ = (s.futures other).impl_ →
      frame.world.log.countP (Event.isWait old) = s.world.log.countP (Event.isWait old) + 1 ∧
      frame.world.log.countP (Event.isProcessFinishResult old)
        = s.world.log.countP (Event.isProcessFinishResult old) + 1

/-- A sample state: the future at address 0 holds call 1, the future at address 1
holds call 2, every other future is empty; nothing logged, every call finished
with status code `code`. -/
def sampleFrame (code : Nat) : Frame :=
  ⟨fun p => if p = 0 then ⟨some 1⟩ else if p = 1 then ⟨some 2⟩ else ⟨none⟩, none,
    sampleWorld code⟩

/-! ## Middleware chain -/

/-- An interceptor as the chain driver sees it: whether its `Handle` invokes
continue (`Next`) on the call context. -/
structure Middleware where
  invokes_continue : Bool
  deriving DecidableEq, Repr

/-- What the chain executes: the interceptor at a position of the chain, or the
user body. -/
inductive ChainEvent where
  | Handle (position : Nat)
  | UserCall
  deriving DecidableEq, Repr

/-- Modelled from the spec: `MiddlewareCallContext` and its `Next` are declared
outside `rpc.cpp`.  The context owns the cursor, "advanced strictly forward";
`Next` hands control to the interceptor under the cursor, which invokes continue
(`Next` again, on the rest of the chain) or does not; "the final link in the
chain invokes the user body itself".  The arguments are the interceptors from
the cursor on and the cursor; the result is what gets executed, in order. -/
def MiddlewareCallContext.Next : List Middleware → Nat → List ChainEvent
  | [], _ => [.UserCall]
  | mw :: rest, cursor =>
    .Handle cursor ::
      (if mw.invokes_continue then MiddlewareCallContext.Next rest (cursor + 1) else [])

/-- The function `impl::CallMiddlewares(mws, call, user_call, request)`: it builds
the call context over the chain, cursor at the start, and calls `Next` once. -/
def CallMiddlewares (mws : List Middleware) : List ChainEvent :=
  MiddlewareCallContext.Next mws 0

end ugrpc.client

namespace formats.json

/-! ## The deep JSON document of the serialize benchmark -/

/-- A `std::string` under construction: the capacity last asked for with
`reserve`, and its characters. -/
structure StdString where
  reserved : Nat
  chars : String
  deriving DecidableEq, Repr

/-- The call `str.reserve(n)`; a request above `max_size()` throws
`std::length_error` (no result). -/
def StdString.reserve (max_size : Nat) (str : StdString) (n : Nat) : Option StdString :=
  if n ≤ max_size then some { str with reserved := n } else none

/-- The statement `str += piece`; a length above `max_size()` throws
`std::length_error` (no result). -/
def StdString.append (max_size : Nat) (str : StdString) (piece : String) :
    Option StdString :=
  if str.chars.length + piece.length ≤ max_size then
    some { str with chars := str.chars ++ piece }
  else none

/-- The loop `for (std::size_t i = 0; i < depth; ++i) str += piece;`. -/
def appendTimes (max_size : Nat) (piece : String) : Nat → StdString → Option StdString
  | 0, str => some str
  | n + 1, str => (str.append max_size piece).bind (appendTimes max_size piece n)

/-- The function `MakeStringOfDeepObject(std::size_t depth)`.  `max_size` is
`std::string::max_size()`; the argument of `reserve` is computed in `std::size_t`,
64 bits wide. -/
def MakeStringOfDeepObject (max_size : Nat) (depth : Nat) : Option StdString :=
  ((StdString.mk 0 "").reserve max_size ((depth * 6 + 1) % 2 ^ 64)).bind fun str =>
  (appendTimes max_size "\x7b\"a\":" depth str).bind fun str =>
  (str.append max_size "1").bind fun str =>
  appendTimes max_size "\x7d" depth str

/-- The constant `kDepth`. -/
def kDepth : Nat := 127

/-- The constant `str_deep_json`, the document the `DeepJson` benchmark parses. -/
def str_deep_json (max_size : Nat) : Option StdString :=
  MakeStringOfDeepObject max_size kDepth

/-- The string made of `n` copies of `piece`. -/
def copies : Nat → String → String
  | 0, _ => ""
  | n + 1, piece => piece ++ copies n piece

/-- Scan the braces of a text: the nesting depth at the end and the deepest
nesting met, from a current depth and a deepest depth so far; no result when a
closing brace has no opening one. -/
def scanBraces : List Char → Nat → Nat → Option (Nat × Nat)
  | [], current, deepest => some (current, deepest)
  | c :: cs, current, deepest =>
    if c = Char.ofNat 123 then scanBraces cs (current + 1) (max deepest (current + 1))
    else if c = Char.ofNat 125 then
      (if current = 0 then none else scanBraces cs (current - 1) deepest)
    else scanBraces cs current deepest

/-- The nesting depth of a text whose braces are balanced: every closing brace
closes an open one and none is left open at the end. -/
def nestingDepth (text : String) : Option Nat :=
  match scanBraces text.data 0 0 with
  | some (0, deepest) => some deepest
  | _ => none

end formats.json

namespace ugrpc.client

/-! ## Shared lemmas -/

theorem armed_iff (self : UnaryFuture) : self.Armed ↔ ∃ data, self.impl_ = some data := by
  unfold UnaryFuture.Armed
  cases h : self.impl_ <;> simp

theorem GetDeadline_timeout (data : DataId) (deadline : Deadline) (w : World) :
    (UnaryFuture.mk (some data)).GetDeadline deadline .kDeadline w
      = ⟨.returned .kTimeout, ⟨some data⟩,
          ⟨w.heap, w.log ++ [.GuardAcquire data, .WaitUntil data deadline .kDeadline,
            .GuardDisarm data, .GuardRelease data false]⟩⟩ := by
  simp [UnaryFuture.GetDeadline, WaitUntil, World.emit]

theorem GetDeadline_cancelled (data : DataId) (deadline : Deadline) (w : World) :
    (UnaryFuture.mk (some data)).GetDeadline deadline .kCancelled w
      = ⟨.returned .kCancelled, ⟨none⟩,
          ⟨w.heap, w.log ++ [.GuardAcquire data, .WaitUntil data deadline .kCancelled,
            .ClearData data, .OnCancelled data, .GuardRelease data true]⟩⟩ := by
  simp [UnaryFuture.GetDeadline, WaitUntil, World.emit, UnaryFuture.ClearData]

theorem GetDeadline_finalized (deadline : Deadline) (observed : WaitStatus) (w : World) :
    (UnaryFuture.mk none).GetDeadline deadline observed w
      = ⟨.aborted "'Get' should not be called after readiness", ⟨none⟩, w⟩ := by
  simp [UnaryFuture.GetDeadline]

theorem ProcessFinishResult_heap (data : DataId) (wait_status : WaitStatus) (status : Status)
    (parsed_gstatus : ParsedGStatus) (isExplicitWait : Bool) (w : World) :
    (ProcessFinishResult data wait_status status parsed_gstatus isExplicitWait w).2.heap
      = w.heap := by
  unfold ProcessFinishResult
  cases status.ok <;> cases isExplicitWait <;> simp [World.emit]

theorem ProcessFinishResult_log (data : DataId) (wait_status : WaitStatus) (status : Status)
    (parsed_gstatus : ParsedGStatus) (isExplicitWait : Bool) (w : World) :
    (ProcessFinishResult data wait_status status parsed_gstatus isExplicitWait w).2.log
      = w.log ++ [.ProcessFinishResult data wait_status status parsed_gstatus isExplicitWait,
          if status.ok then .OnSuccess data else .OnError data status.error_code] := by
  unfold ProcessFinishResult
  cases status.ok <;> cases isExplicitWait <;> simp [World.emit]

theorem ProcessFinishResult_out (data : DataId) (wait_status : WaitStatus) (status : Status)
    (parsed_gstatus : ParsedGStatus) (isExplicitWait : Bool) (w : World) :
    (ProcessFinishResult data wait_status status parsed_gstatus isExplicitWait w).1
      = if status.ok || !isExplicitWait then .ok ()
        else .error (.ErrorWithStatus (w.heap data).call_name status.error_code
          parsed_gstatus) := by
  unfold ProcessFinishResult
  cases status.ok <;> cases isExplicitWait <;> simp [World.emit]

theorem GetDeadline_completed (data : DataId) (deadline : Deadline) (observed : WaitStatus)
    (w : World) (hobs : observed = .kOk ∨ observed = .kError) :
    (UnaryFuture.mk (some data)).GetDeadline deadline observed w
      = ⟨match (ProcessFinishResult data observed (w.heap data).status
            (w.heap data).parsed_gstatus true
            ⟨w.heap, w.log ++ [.GuardAcquire data, .WaitUntil data deadline observed,
              .ClearData data]⟩).1 with
          | .ok () => .returned .kReady
          | .error e => .raised e,
         ⟨none⟩,
         ⟨w.heap, (ProcessFinishResult data observed (w.heap data).status
            (w.heap data).parsed_gstatus true
            ⟨w.heap, w.log ++ [.GuardAcquire data, .WaitUntil data deadline observed,
              .ClearData data]⟩).2.log ++ [.GuardRelease data true]⟩⟩ := by
  rcases hobs with h | h <;> subst h <;>
    cases hok : (w.heap data).status.ok <;>
    simp [UnaryFuture.GetDeadline, WaitUntil, World.emit, UnaryFuture.ClearData,
      ProcessFinishResult, hok]

theorem Destroy_finalized (observed : WaitStatus) (w : World) :
    (UnaryFuture.mk none).Destroy observed w = ⟨.returned (), ⟨none⟩, w⟩ := by
  simp [UnaryFuture.Destroy]

theorem Destroy_armed (data : DataId) (observed : WaitStatus) (w : World) :
    (UnaryFuture.mk (some data)).Destroy observed w
      = ⟨.returned (), ⟨some data⟩,
          ⟨w.heap, w.log ++ [.GuardAcquire data, .Wait data observed,
            .ProcessFinishResult data observed (w.heap data).status
              (w.heap data).parsed_gstatus false,
            if (w.heap data).status.ok then .OnSuccess data
              else .OnError data (w.heap data).status.error_code,
            .GuardRelease data true]⟩⟩ := by
  cases hok : (w.heap data).status.ok <;>
    simp [UnaryFuture.Destroy, Wait, World.emit, ProcessFinishResult, hok]

theorem Get_finalized (observed : WaitStatus) (w : World) :
    (UnaryFuture.mk none).Get observed w
      = ⟨.aborted "'Get' should not be called after readiness", ⟨none⟩, w⟩ := by
  simp [UnaryFuture.Get]

theorem usageError_finalized (w : World) : UsageError ⟨none⟩ w := by
  refine ⟨fun deadline observed => ?_, fun observed => ?_⟩
  · rw [GetDeadline_finalized]; exact ⟨rfl, rfl, rfl⟩
  · rw [Get_finalized]; exact ⟨rfl, rfl, rfl⟩

theorem GetDeadline_terminal_fut (data : DataId) (deadline : Deadline)
    (observed : WaitStatus) (w : World) (hobs : observed ≠ .kDeadline) :
    ((UnaryFuture.mk (some data)).GetDeadline deadline observed w).fut = ⟨none⟩ := by
  cases observed
  · rw [GetDeadline_completed _ _ _ _ (Or.inl rfl)]
  · rw [GetDeadline_completed _ _ _ _ (Or.inr rfl)]
  · rw [GetDeadline_cancelled]
  · exact absurd rfl hobs

theorem Get_fut (data : DataId) (observed : WaitStatus) (w : World) :
    ((UnaryFuture.mk (some data)).Get observed w).fut
      = ((UnaryFuture.mk (some data)).GetDeadline none observed w).fut := by
  simp only [UnaryFuture.Get]
  split <;> try rfl
  split <;> try rfl
  split <;> try rfl
  split <;> rfl

theorem Get_world (data : DataId) (observed : WaitStatus) (w : World) :
    ((UnaryFuture.mk (some data)).Get observed w).world
      = ((UnaryFuture.mk (some data)).GetDeadline none observed w).world := by
  simp only [UnaryFuture.Get]
  split <;> try rfl
  split <;> try rfl
  split <;> try rfl
  split <;> rfl

theorem Get_out (data : DataId) (observed : WaitStatus) (w : World) :
    ((UnaryFuture.mk (some data)).Get observed w).out
      = match observed with
        | .kOk | .kError =>
          if (w.heap data).status.ok then .returned ()
          else .raised (.ErrorWithStatus (w.heap data).call_name
            (w.heap data).status.error_code (w.heap data).parsed_gstatus)
        | .kCancelled => .raised (.RpcCancelledError (w.heap data).call_name "Get()")
        | .kDeadline => .aborted "kTimeout has happened for infinite timeout" := by
  cases observed <;> cases hok : (w.heap data).status.ok <;>
    simp [UnaryFuture.Get, UnaryFuture.GetDeadline, WaitUntil, World.emit,
      UnaryFuture.ClearData, ProcessFinishResult, hok]

theorem GetDeadline_frame (self : UnaryFuture) (deadline : Deadline) (observed : WaitStatus)
    (heap : DataId → RpcData) :
    ∃ (out : Outcome FutureStatus) (fut : UnaryFuture) (events : List Event),
      ∀ log, self.GetDeadline deadline observed ⟨heap, log⟩
        = ⟨out, fut, ⟨heap, log ++ events⟩⟩ := by
  obtain ⟨impl⟩ := self
  cases impl with
  | none =>
    exact ⟨.aborted "'Get' should not be called after readiness", ⟨none⟩, [],
      fun log => by rw [GetDeadline_finalized]; simp⟩
  | some data =>
    have hcompleted : ∀ obs, obs = WaitStatus.kOk ∨ obs = WaitStatus.kError →
        ∃ (out : Outcome FutureStatus) (fut : UnaryFuture) (events : List Event),
          ∀ log, (UnaryFuture.mk (some data)).GetDeadline deadline obs ⟨heap, log⟩
            = ⟨out, fut, ⟨heap, log ++ events⟩⟩ := by
      intro obs hobs
      refine ⟨if (heap data).status.ok then .returned .kReady
          else .raised (.ErrorWithStatus (heap data).call_name (heap data).status.error_code
            (heap data).parsed_gstatus),
        ⟨none⟩,
        [.GuardAcquire data, .WaitUntil data deadline obs, .ClearData data,
          .ProcessFinishResult data obs (heap data).status (heap data).parsed_gstatus true,
          if (heap data).status.ok then .OnSuccess data
            else .OnError data (heap data).status.error_code,
          .GuardRelease data true], fun log => ?_⟩
      rw [GetDeadline_completed _ _ _ _ hobs]
      simp only [ProcessFinishResult_log, ProcessFinishResult_out]
      cases hok : (heap data).status.ok <;> simp
    cases observed with
    | kOk => exact hcompleted _ (Or.inl rfl)
    | kError => exact hcompleted _ (Or.inr rfl)
    | kCancelled =>
      exact ⟨.returned .kCancelled, ⟨none⟩,
        [.GuardAcquire data, .WaitUntil data deadline .kCancelled,
          .ClearData data, .OnCancelled data, .GuardRelease data true],
        fun log => by rw [GetDeadline_cancelled]⟩
    | kDeadline =>
      exact ⟨.returned .kTimeout, ⟨some data⟩,
        [.GuardAcquire data, .WaitUntil data deadline .kDeadline,
          .GuardDisarm data, .GuardRelease data false],
        fun log => by rw [GetDeadline_timeout]⟩

theorem Gets_timeouts (data : DataId) (deadlines : List Deadline) (w : World) :
    ∃ events : List Event,
      (UnaryFuture.mk (some data)).Gets (deadlines.map (fun d => (d, WaitStatus.kDeadline))) w
        = ⟨.returned (), ⟨some data⟩, ⟨w.heap, w.log ++ events⟩⟩ ∧
      (∀ d, events.filter (Event.isStatistics d) = []) := by
  induction deadlines generalizing w with
  | nil => exact ⟨[], by simp [UnaryFuture.Gets], by simp⟩
  | cons deadline rest ih =>
    obtain ⟨events, hrun, hstats⟩ := ih
      ⟨w.heap, w.log ++ [.GuardAcquire data, .WaitUntil data deadline .kDeadline,
        .GuardDisarm data, .GuardRelease data false]⟩
    refine ⟨[.GuardAcquire data, .WaitUntil data deadline .kDeadline,
        .GuardDisarm data, .GuardRelease data false] ++ events, ?_, ?_⟩
    · simp only [List.map_cons, UnaryFuture.Gets, GetDeadline_timeout]
      rw [hrun]
      simp
    · intro d
      simp [List.filter_cons, hstats d, Event.isStatistics, Event.isOnSuccess,
        Event.isOnError, Event.isOnCancelled]

theorem Lifetime_nil (self : UnaryFuture) (observed : WaitStatus) (w : World) :
    self.Lifetime [] observed w = self.Destroy observed w := by
  simp [UnaryFuture.Lifetime, UnaryFuture.Gets]

theorem Lifetime_cons_timeout (data : DataId) (deadline : Deadline)
    (rest : List (Deadline × WaitStatus)) (observed : WaitStatus) (w : World) :
    (UnaryFuture.mk (some data)).Lifetime ((deadline, .kDeadline) :: rest) observed w
      = (UnaryFuture.mk (some data)).Lifetime rest observed
          ⟨w.heap, w.log ++ [.GuardAcquire data, .WaitUntil data deadline .kDeadline,
            .GuardDisarm data, .GuardRelease data false]⟩ := by
  simp [UnaryFuture.Lifetime, UnaryFuture.Gets, GetDeadline_timeout]

theorem Lifetime_single_terminal (data : DataId) (deadline : Deadline)
    (last observed : WaitStatus) (w : World) (hlast : last ≠ .kDeadline) :
    (UnaryFuture.mk (some data)).Lifetime [(deadline, last)] observed w
      = ⟨.returned (), ⟨none⟩,
          ((UnaryFuture.mk (some data)).GetDeadline deadline last w).world⟩ := by
  cases last with
  | kOk =>
    cases hok : (w.heap data).status.ok <;>
      simp [UnaryFuture.Lifetime, UnaryFuture.Gets, GetDeadline_completed,
        ProcessFinishResult_out, Destroy_finalized, hok]
  | kError =>
    cases hok : (w.heap data).status.ok <;>
      simp [UnaryFuture.Lifetime, UnaryFuture.Gets, GetDeadline_completed,
        ProcessFinishResult_out, Destroy_finalized, hok]
  | kCancelled =>
    simp [UnaryFuture.Lifetime, UnaryFuture.Gets, GetDeadline_cancelled, Destroy_finalized]
  | kDeadline => exact absurd rfl hlast

theorem GetDeadline_terminal_counts (data : DataId) (deadline : Deadline)
    (observed : WaitStatus) (w : World) (hobs : observed ≠ .kDeadline) :
    ((UnaryFuture.mk (some data)).GetDeadline deadline observed w).world.log.countP
        (Event.isTerminalWait data) = w.log.countP (Event.isTerminalWait data) + 1 ∧
    ((UnaryFuture.mk (some data)).GetDeadline deadline observed w).world.log.countP
        (Event.isFinalization data) = w.log.countP (Event.isFinalization data) + 1 := by
  cases observed with
  | kOk =>
    rw [GetDeadline_completed _ _ _ _ (Or.inl rfl)]
    simp only [ProcessFinishResult_log]
    cases hok : (w.heap data).status.ok <;>
      simp [List.countP_append, List.countP_cons, Event.isTerminalWait,
        Event.isFinalization, Event.isProcessFinishResult, Event.isOnCancelled]
  | kError =>
    rw [GetDeadline_completed _ _ _ _ (Or.inr rfl)]
    simp only [ProcessFinishResult_log]
    cases hok : (w.heap data).status.ok <;>
      simp [List.countP_append, List.countP_cons, Event.isTerminalWait,
        Event.isFinalization, Event.isProcessFinishResult, Event.isOnCancelled]
  | kCancelled =>
    rw [GetDeadline_cancelled]
    simp [List.countP_append, List.countP_cons, Event.isTerminalWait,
      Event.isFinalization, Event.isProcessFinishResult, Event.isOnCancelled]
  | kDeadline => exact absurd rfl hobs

theorem Destroy_armed_counts (data : DataId) (observed : WaitStatus) (w : World) :
    (observed ≠ .kDeadline →
      ((UnaryFuture.mk (some data)).Destroy observed w).world.log.countP
        (Event.isTerminalWait data) = w.log.countP (Event.isTerminalWait data) + 1) ∧
    ((UnaryFuture.mk (some data)).Destroy observed w).world.log.countP
        (Event.isFinalization data) = w.log.countP (Event.isFinalization data) + 1 := by
  rw [Destroy_armed]
  cases observed <;> cases hok : (w.heap data).status.ok <;>
    simp_all [List.countP_append, List.countP_cons, Event.isTerminalWait,
      Event.isFinalization, Event.isProcessFinishResult, Event.isOnCancelled]

theorem Lifetime_counts (data : DataId) (observed : WaitStatus)
    (gets : List (Deadline × WaitStatus)) :
    ∀ w : World, NoGetAfterTerminal gets = true →
      ((UnaryFuture.mk (some data)).Lifetime gets observed w).out = .returned () ∧
      (observed ≠ .kDeadline →
        ((UnaryFuture.mk (some data)).Lifetime gets observed w).world.log.countP
          (Event.isTerminalWait data) = w.log.countP (Event.isTerminalWait data) + 1) ∧
      ((UnaryFuture.mk (some data)).Lifetime gets observed w).world.log.countP
          (Event.isFinalization data) = w.log.countP (Event.isFinalization data) + 1 := by
  induction gets with
  | nil =>
    intro w _
    rw [Lifetime_nil]
    exact ⟨by rw [Destroy_armed], Destroy_armed_counts data observed w⟩
  | cons head rest ih =>
    intro w hwf
    obtain ⟨deadline, last⟩ := head
    by_cases hlast : last = .kDeadline
    · subst hlast
      have hrest : NoGetAfterTerminal rest = true := by
        simp [NoGetAfterTerminal] at hwf
        exact hwf
      rw [Lifetime_cons_timeout]
      obtain ⟨h1, h2, h3⟩ := ih _ hrest
      refine ⟨h1, fun hobs => ?_, ?_⟩
      · rw [h2 hobs]
        simp [List.countP_append, List.countP_cons, Event.isTerminalWait]
      · rw [h3]
        simp [List.countP_append, List.countP_cons, Event.isFinalization,
          Event.isProcessFinishResult, Event.isOnCancelled]
    · have hnil : rest = [] := by
        simp [NoGetAfterTerminal, hlast] at hwf
        exact hwf.1
      subst hnil
      rw [Lifetime_single_terminal _ _ _ _ _ hlast]
      exact ⟨rfl, fun _ => (GetDeadline_terminal_counts data deadline last w hlast).1,
        (GetDeadline_terminal_counts data deadline last w hlast).2⟩

/-! ## Theorems -/

/-- Claim C1.  A future created Armed on a call, any lifetime made of
`Get(deadline)` calls followed by destruction, with no `Get` issued after a
terminal outcome: the lifetime runs to its end and exactly one finalization step
of the call (a `ProcessFinishResult` call or an `OnCancelled` record) is
executed over it; and, the wait without deadline of the destructor not timing
out, exactly one non-deadline wait outcome is consumed over it. -/
theorem lifetime_finalizes_exactly_once (data : DataId)
    (gets : List (Deadline × WaitStatus)) (observed : WaitStatus) (w : World)
    (hwf : NoGetAfterTerminal gets = true) :
    ((UnaryFuture.new data).Lifetime gets observed w).out = .returned () ∧
    ((UnaryFuture.new data).Lifetime gets observed w).world.log.countP
        (Event.isFinalization data) = w.log.countP (Event.isFinalization data) + 1 ∧
    (observed ≠ .kDeadline →
      ((UnaryFuture.new data).Lifetime gets observed w).world.log.countP
        (Event.isTerminalWait data) = w.log.countP (Event.isTerminalWait data) + 1) :=
  ⟨(Lifetime_counts data observed gets w hwf).1,
    (Lifetime_counts data observed gets w hwf).2.2,
    (Lifetime_counts data observed gets w hwf).2.1⟩

/-- Witness of C1: two timeouts, then a wait that yields `kError`, then
destruction. -/
theorem lifetime_finalizes_exactly_once_witness :
    NoGetAfterTerminal [(some 1, .kDeadline), (some 2, .kDeadline), (none, .kError)] = true ∧
    ((UnaryFuture.new 7).Lifetime
        [(some 1, .kDeadline), (some 2, .kDeadline), (none, .kError)] .kOk
        (sampleWorld 14)).world.log.countP (Event.isFinalization 7)
      = (sampleWorld 14).log.countP (Event.isFinalization 7) + 1 ∧
    ((UnaryFuture.new 7).Lifetime
        [(some 1, .kDeadline), (some 2, .kDeadline), (none, .kError)] .kOk
        (sampleWorld 14)).world.log.countP (Event.isTerminalWait 7)
      = (sampleWorld 14).log.countP (Event.isTerminalWait 7) + 1 :=
  ⟨by decide,
    (lifetime_finalizes_exactly_once 7
      [(some 1, .kDeadline), (some 2, .kDeadline), (none, .kError)] .kOk (sampleWorld 14)
      (by decide)).2.1,
    (lifetime_finalizes_exactly_once 7
      [(some 1, .kDeadline), (some 2, .kDeadline), (none, .kError)] .kOk (sampleWorld 14)
      (by decide)).2.2 (by decide)⟩

/-- Claim C4.  An Armed future, any number of `Get(deadline)` calls that each
observe `kDeadline`, then a `Get(deadline)` whose wait yields the outcome
`observed` (any outcome, so every non-deadline one): the timed out calls all
return, and the last call has the same outcome (result or raised error), leaves
the same future and the same statistics of every call, and logs the same events
as it does on the original future. -/
theorem rewait_after_timeouts_is_idempotent (self : UnaryFuture) (data : DataId)
    (deadlines : List Deadline) (deadline : Deadline) (observed : WaitStatus) (w : World)
    (harmed : self.impl_ = some data) :
    (self.Gets (deadlines.map (fun d => (d, WaitStatus.kDeadline))) w).out = .returned () ∧
    ((self.Gets (deadlines.map (fun d => (d, WaitStatus.kDeadline))) w).fut.GetDeadline
        deadline observed
        (self.Gets (deadlines.map (fun d => (d, WaitStatus.kDeadline))) w).world).out
      = (self.GetDeadline deadline observed w).out ∧
    ((self.Gets (deadlines.map (fun d => (d, WaitStatus.kDeadline))) w).fut.GetDeadline
        deadline observed
        (self.Gets (deadlines.map (fun d => (d, WaitStatus.kDeadline))) w).world).fut
      = (self.GetDeadline deadline observed w).fut ∧
    (∀ d,
      ((self.Gets (deadlines.map (fun d => (d, WaitStatus.kDeadline))) w).fut.GetDeadline
        deadline observed
        (self.Gets (deadlines.map (fun d => (d, WaitStatus.kDeadline))) w).world).world.statistics d
      = (self.GetDeadline deadline observed w).world.statistics d) ∧
    ∃ events : List Event,
      (self.GetDeadline deadline observed w).world.log = w.log ++ events ∧
      ((self.Gets (deadlines.map (fun d => (d, WaitStatus.kDeadline))) w).fut.GetDeadline
        deadline observed
        (self.Gets (deadlines.map (fun d => (d, WaitStatus.kDeadline))) w).world).world.log
      = (self.Gets (deadlines.map (fun d => (d, WaitStatus.kDeadline))) w).world.log
          ++ events := by
  obtain ⟨impl⟩ := self
  simp only at harmed
  subst harmed
  obtain ⟨timeouts, hrun, hstats⟩ := Gets_timeouts data deadlines w
  obtain ⟨out, fut, events, hget⟩ :=
    GetDeadline_frame ⟨some data⟩ deadline observed w.heap
  have hdirect : (UnaryFuture.mk (some data)).GetDeadline deadline observed w
      = ⟨out, fut, ⟨w.heap, w.log ++ events⟩⟩ := hget w.log
  rw [hrun, hdirect, hget (w.log ++ timeouts)]
  refine ⟨rfl, rfl, rfl, fun d => ?_, events, rfl, rfl⟩
  simp [World.statistics, List.filter_append, hstats d]

/-- Witness of C4: two timeouts on call 7, then a wait that yields `kOk` on a call
finished with status code 14. -/
theorem rewait_after_timeouts_is_idempotent_witness :
    (UnaryFuture.new 7).impl_ = some 7 ∧
    (((UnaryFuture.new 7).Gets
        ([some 1, some 2].map (fun d => (d, WaitStatus.kDeadline)))
        (sampleWorld 14)).fut.GetDeadline none .kOk
      ((UnaryFuture.new 7).Gets
        ([some 1, some 2].map (fun d => (d, WaitStatus.kDeadline)))
        (sampleWorld 14)).world).out
      = ((UnaryFuture.new 7).GetDeadline none .kOk (sampleWorld 14)).out :=
  ⟨rfl,
    (rewait_after_timeouts_is_idempotent (UnaryFuture.new 7) 7 [some 1, some 2] none .kOk
      (sampleWorld 14) rfl).2.1⟩


/-- Claim C3.  An Armed future whose wait inside `Get(deadline)` yields `kDeadline`:
`Get` returns `kTimeout`, the future still holds the same call state, and what
the call did is exactly: acquire the guard, wait, disarm the guard, release the
disarmed guard.  No `ProcessFinishResult` call and no statistics callback. -/
theorem get_deadline_timeout_keeps_armed (self : UnaryFuture) (deadline : Deadline)
    (w : World) (data : DataId) (harmed : self.impl_ = some data) :
    (self.GetDeadline deadline .kDeadline w).out = .returned .kTimeout ∧
    (self.GetDeadline deadline .kDeadline w).fut = self ∧
    (self.GetDeadline deadline .kDeadline w).fut.Armed ∧
    (self.GetDeadline deadline .kDeadline w).world.heap = w.heap ∧
    (self.GetDeadline deadline .kDeadline w).world.log
      = w.log ++ [.GuardAcquire data, .WaitUntil data deadline .kDeadline,
          .GuardDisarm data, .GuardRelease data false] ∧
    (∀ d, (self.GetDeadline deadline .kDeadline w).world.log.countP
        (Event.isProcessFinishResult d) = w.log.countP (Event.isProcessFinishResult d)) ∧
    (∀ d, (self.GetDeadline deadline .kDeadline w).world.statistics d = w.statistics d) := by
  obtain ⟨impl⟩ := self
  simp only at harmed
  subst harmed
  rw [GetDeadline_timeout]
  refine ⟨rfl, rfl, rfl, rfl, rfl, ?_, ?_⟩
  · intro d
    simp [List.countP_append, List.countP_cons, Event.isProcessFinishResult]
  · intro d
    simp [World.statistics, List.filter_append, List.filter_cons, Event.isStatistics,
      Event.isOnSuccess, Event.isOnError, Event.isOnCancelled]

/-- Witness of C3 on the future of call 7, a deadline at time 5. -/
theorem get_deadline_timeout_keeps_armed_witness :
    ((UnaryFuture.new 7).GetDeadline (some 5) .kDeadline (sampleWorld 0)).out
        = .returned .kTimeout ∧
    ((UnaryFuture.new 7).GetDeadline (some 5) .kDeadline (sampleWorld 0)).fut
        = UnaryFuture.new 7 :=
  ⟨(get_deadline_timeout_keeps_armed (UnaryFuture.new 7) (some 5) (sampleWorld 0) 7 rfl).1,
   (get_deadline_timeout_keeps_armed (UnaryFuture.new 7) (some 5) (sampleWorld 0) 7 rfl).2.1⟩

/-- Claim C2.  An Armed future that reaches a terminal outcome through `Get` (its
wait yields `kOk`, `kError` or `kCancelled`), through either form of `Get`:
every further `Get()` or `Get(deadline)` aborts on the check "Get should not be
called after readiness", and logs nothing: no wait, no statistics update, no
finalization. -/
theorem get_after_terminal_is_usage_error (self : UnaryFuture) (data : DataId)
    (deadline : Deadline) (observed : WaitStatus) (w : World)
    (harmed : self.impl_ = some data)
    (hterm : observed = .kOk ∨ observed = .kError ∨ observed = .kCancelled) :
    UsageError (self.GetDeadline deadline observed w).fut
      (self.GetDeadline deadline observed w).world ∧
    UsageError (self.Get observed w).fut (self.Get observed w).world := by
  obtain ⟨impl⟩ := self
  simp only at harmed
  subst harmed
  have hne : observed ≠ .kDeadline := by
    rcases hterm with h | h | h <;> simp [h]
  constructor
  · rw [GetDeadline_terminal_fut _ _ _ _ hne]
    exact usageError_finalized _
  · rw [Get_fut, GetDeadline_terminal_fut _ _ _ _ hne]
    exact usageError_finalized _

/-- Witness of C2: after `Get(deadline)` completed with `kError` on call 7, a
further `Get()` whose wait would yield `kOk` aborts on the check. -/
theorem get_after_terminal_is_usage_error_witness :
    (UnaryFuture.new 7).impl_ = some 7 ∧
    (((UnaryFuture.new 7).GetDeadline (some 5) .kError (sampleWorld 14)).fut.Get .kOk
        ((UnaryFuture.new 7).GetDeadline (some 5) .kError (sampleWorld 14)).world).out
      = .aborted "'Get' should not be called after readiness" :=
  ⟨rfl, ((get_after_terminal_is_usage_error (UnaryFuture.new 7) 7 (some 5) .kError
    (sampleWorld 14) rfl (Or.inr (Or.inl rfl))).1.2 .kOk).1⟩

/-- Claim C5.  An Armed future whose wait yields `kOk`, `kError` or `kCancelled`:
`Get(deadline)` leaves the future Finalized, whether it returns or raises (it
does one of the two), and the call state is cleared before the outcome is
translated: what the call logs is guard acquisition, the wait, `ClearData`, then
the translation, which holds the one finalization step, then the guard
release. -/
theorem get_terminal_clears_data_first (self : UnaryFuture) (data : DataId)
    (deadline : Deadline) (observed : WaitStatus) (w : World)
    (harmed : self.impl_ = some data)
    (hterm : observed = .kOk ∨ observed = .kError ∨ observed = .kCancelled) :
    (self.GetDeadline deadline observed w).fut.Finalized ∧
    ((∃ s, (self.GetDeadline deadline observed w).out = .returned s) ∨
      (∃ e, (self.GetDeadline deadline observed w).out = .raised e)) ∧
    ∃ translation : List Event,
      (self.GetDeadline deadline observed w).world.log
        = w.log ++ [.GuardAcquire data, .WaitUntil data deadline observed, .ClearData data]
            ++ translation ++ [.GuardRelease data true] ∧
      translation.countP (Event.isFinalization data) = 1 := by
  obtain ⟨impl⟩ := self
  simp only at harmed
  subst harmed
  have hcompleted : ∀ obs, obs = WaitStatus.kOk ∨ obs = WaitStatus.kError →
      ((UnaryFuture.mk (some data)).GetDeadline deadline obs w).fut.Finalized ∧
      ((∃ s, ((UnaryFuture.mk (some data)).GetDeadline deadline obs w).out = .returned s) ∨
        (∃ e, ((UnaryFuture.mk (some data)).GetDeadline deadline obs w).out = .raised e)) ∧
      ∃ translation : List Event,
        ((UnaryFuture.mk (some data)).GetDeadline deadline obs w).world.log
          = w.log ++ [.GuardAcquire data, .WaitUntil data deadline obs, .ClearData data]
              ++ translation ++ [.GuardRelease data true] ∧
        translation.countP (Event.isFinalization data) = 1 := by
    intro obs hobs
    rw [GetDeadline_completed _ _ _ _ hobs, ProcessFinishResult_log, ProcessFinishResult_out]
    refine ⟨rfl, ?_, ?_⟩
    · cases hok : (w.heap data).status.ok
      · right
        exact ⟨.ErrorWithStatus (w.heap data).call_name (w.heap data).status.error_code
          (w.heap data).parsed_gstatus, by simp⟩
      · left
        exact ⟨.kReady, by simp⟩
    · refine ⟨[.ProcessFinishResult data obs (w.heap data).status
          (w.heap data).parsed_gstatus true,
          if (w.heap data).status.ok then .OnSuccess data
            else .OnError data (w.heap data).status.error_code], by simp, ?_⟩
      cases hok : (w.heap data).status.ok <;>
        simp [List.countP_cons, Event.isFinalization, Event.isProcessFinishResult,
          Event.isOnCancelled]
  rcases hterm with h | h | h
  · exact h ▸ hcompleted .kOk (Or.inl rfl)
  · exact h ▸ hcompleted .kError (Or.inr rfl)
  · subst h
    rw [GetDeadline_cancelled]
    refine ⟨rfl, Or.inl ⟨_, rfl⟩, [.OnCancelled data], by simp, ?_⟩
    simp [List.countP_cons, Event.isFinalization, Event.isProcessFinishResult,
      Event.isOnCancelled]

/-- Witness of C5: call 7 completes with status code 14, so the finalizer raises;
the future is Finalized all the same. -/
theorem get_terminal_clears_data_first_witness :
    (UnaryFuture.new 7).impl_ = some 7 ∧
    ((UnaryFuture.new 7).GetDeadline (some 5) .kOk (sampleWorld 14)).fut.Finalized ∧
    ((UnaryFuture.new 7).GetDeadline (some 5) .kOk (sampleWorld 14)).out
      = .raised (.ErrorWithStatus "svc/Method" 14 none) :=
  ⟨rfl, (get_terminal_clears_data_first (UnaryFuture.new 7) 7 (some 5) .kOk
    (sampleWorld 14) rfl (Or.inl rfl)).1, rfl⟩

/-- Claim C6.  An Armed future whose waiting task is cancelled during
`Get(deadline)`: `Get` returns `kCancelled`, `OnCancelled` is recorded on the
statistics scope of the call exactly once, `ProcessFinishResult` is not called,
and destroying the future afterwards, whatever a wait would yield, logs nothing
more. -/
theorem get_cancelled_records_once (self : UnaryFuture) (data : DataId)
    (deadline : Deadline) (w : World) (harmed : self.impl_ = some data) :
    (self.GetDeadline deadline .kCancelled w).out = .returned .kCancelled ∧
    (self.GetDeadline deadline .kCancelled w).world.log
      = w.log ++ [.GuardAcquire data, .WaitUntil data deadline .kCancelled,
          .ClearData data, .OnCancelled data, .GuardRelease data true] ∧
    (self.GetDeadline deadline .kCancelled w).world.log.countP (Event.isOnCancelled data)
      = w.log.countP (Event.isOnCancelled data) + 1 ∧
    (self.GetDeadline deadline .kCancelled w).world.log.countP
        (Event.isProcessFinishResult data)
      = w.log.countP (Event.isProcessFinishResult data) ∧
    ∀ observed,
      ((self.GetDeadline deadline .kCancelled w).fut.Destroy observed
          (self.GetDeadline deadline .kCancelled w).world).out = .returned () ∧
      ((self.GetDeadline deadline .kCancelled w).fut.Destroy observed
          (self.GetDeadline deadline .kCancelled w).world).world.log
        = (self.GetDeadline deadline .kCancelled w).world.log := by
  obtain ⟨impl⟩ := self
  simp only at harmed
  subst harmed
  rw [GetDeadline_cancelled]
  refine ⟨rfl, rfl, ?_, ?_, fun observed => ?_⟩
  · simp [List.countP_append, List.countP_cons, Event.isOnCancelled]
  · simp [List.countP_append, List.countP_cons, Event.isProcessFinishResult]
  · rw [Destroy_finalized]
    exact ⟨rfl, rfl⟩

/-- Witness of C6 on the future of call 7. -/
theorem get_cancelled_records_once_witness :
    (UnaryFuture.new 7).impl_ = some 7 ∧
    ((UnaryFuture.new 7).GetDeadline (some 5) .kCancelled (sampleWorld 0)).out
      = .returned .kCancelled ∧
    ((UnaryFuture.new 7).GetDeadline (some 5) .kCancelled (sampleWorld 0)).world.log
      = [.GuardAcquire 7, .WaitUntil 7 (some 5) .kCancelled, .ClearData 7, .OnCancelled 7,
          .GuardRelease 7 true] :=
  ⟨rfl, (get_cancelled_records_once (UnaryFuture.new 7) 7 (some 5) (sampleWorld 0) rfl).1,
    (get_cancelled_records_once (UnaryFuture.new 7) 7 (some 5) (sampleWorld 0) rfl).2.1⟩

/-- Claim C7.  On an Armed future, `Get()` raises `RpcCancelledError` exactly when
the unbounded wait ends with `kCancelled`, and the error then carries the call
name of the call state the future held when `Get()` was entered. -/
theorem get_raises_cancelled_iff (self : UnaryFuture) (data : DataId)
    (observed : WaitStatus) (w : World) (harmed : self.impl_ = some data) :
    ((∃ name stage, (self.Get observed w).out = .raised (.RpcCancelledError name stage))
      ↔ observed = .kCancelled) ∧
    (∀ name stage, (self.Get observed w).out = .raised (.RpcCancelledError name stage) →
      name = (w.heap data).call_name ∧ stage = "Get()") := by
  obtain ⟨impl⟩ := self
  simp only at harmed
  subst harmed
  rw [Get_out]
  cases observed <;> cases hok : (w.heap data).status.ok <;> simp

/-- Witness of C7: the wait of `Get()` on call 7 is cancelled. -/
theorem get_raises_cancelled_iff_witness :
    (UnaryFuture.new 7).impl_ = some 7 ∧
    ((∃ name stage, ((UnaryFuture.new 7).Get .kCancelled (sampleWorld 0)).out
        = .raised (.RpcCancelledError name stage)) ↔ WaitStatus.kCancelled = .kCancelled) ∧
    ((UnaryFuture.new 7).Get .kCancelled (sampleWorld 0)).out
      = .raised (.RpcCancelledError "svc/Method" "Get()") :=
  ⟨rfl, (get_raises_cancelled_iff (UnaryFuture.new 7) 7 .kCancelled (sampleWorld 0) rfl).1,
    rfl⟩

/-- Claim C8.  An Armed future whose wait yields `kOk` or `kError`: after guard
acquisition, the wait and `ClearData`, `Get(deadline)` calls
`ProcessFinishResult` exactly once, with that wait status, the status and parsed
status of the finish operation and `isExplicitWait = true`; it returns `kReady`
when the finalizer returns and raises the error the finalizer raises otherwise;
`OnCancelled` is not recorded. -/
theorem get_completed_calls_finalizer_once (self : UnaryFuture) (data : DataId)
    (deadline : Deadline) (observed : WaitStatus) (w : World)
    (harmed : self.impl_ = some data)
    (hobs : observed = .kOk ∨ observed = .kError) :
    (self.GetDeadline deadline observed w).world.log
      = (ProcessFinishResult data observed (w.heap data).status
          (w.heap data).parsed_gstatus true
          ⟨w.heap, w.log ++ [.GuardAcquire data, .WaitUntil data deadline observed,
            .ClearData data]⟩).2.log ++ [.GuardRelease data true] ∧
    ((ProcessFinishResult data observed (w.heap data).status
          (w.heap data).parsed_gstatus true
          ⟨w.heap, w.log ++ [.GuardAcquire data, .WaitUntil data deadline observed,
            .ClearData data]⟩).1 = .ok () →
      (self.GetDeadline deadline observed w).out = .returned .kReady) ∧
    (∀ e, (ProcessFinishResult data observed (w.heap data).status
          (w.heap data).parsed_gstatus true
          ⟨w.heap, w.log ++ [.GuardAcquire data, .WaitUntil data deadline observed,
            .ClearData data]⟩).1 = .error e →
      (self.GetDeadline deadline observed w).out = .raised e) ∧
    (self.GetDeadline deadline observed w).world.log.countP
        (Event.isProcessFinishResult data)
      = w.log.countP (Event.isProcessFinishResult data) + 1 ∧
    (self.GetDeadline deadline observed w).world.log.count
        (.ProcessFinishResult data observed (w.heap data).status
          (w.heap data).parsed_gstatus true)
      = w.log.count (.ProcessFinishResult data observed (w.heap data).status
          (w.heap data).parsed_gstatus true) + 1 ∧
    (∀ d, (self.GetDeadline deadline observed w).world.log.countP (Event.isOnCancelled d)
      = w.log.countP (Event.isOnCancelled d)) := by
  obtain ⟨impl⟩ := self
  simp only at harmed
  subst harmed
  rw [GetDeadline_completed _ _ _ _ hobs]
  refine ⟨rfl, ?_, ?_, ?_, ?_, ?_⟩
  · intro h
    simp only [h]
  · intro e h
    simp only [h]
  · simp only [ProcessFinishResult_log]
    cases hok : (w.heap data).status.ok <;>
      simp [List.countP_append, List.countP_cons, Event.isProcessFinishResult]
  · simp only [ProcessFinishResult_log]
    cases hok : (w.heap data).status.ok <;>
      simp [List.count_append, List.count_cons]
  · intro d
    simp only [ProcessFinishResult_log]
    cases hok : (w.heap data).status.ok <;>
      simp [List.countP_append, List.countP_cons, Event.isOnCancelled]

/-- Witness of C8: call 7 completes with `kError` and status code 14; the one
finalizer call raises and `Get(deadline)` raises the same error. -/
theorem get_completed_calls_finalizer_once_witness :
    (UnaryFuture.new 7).impl_ = some 7 ∧
    ((UnaryFuture.new 7).GetDeadline (some 5) .kError (sampleWorld 14)).world.log.countP
        (Event.isProcessFinishResult 7) = 1 ∧
    ((UnaryFuture.new 7).GetDeadline (some 5) .kError (sampleWorld 14)).out
      = .raised (.ErrorWithStatus "svc/Method" 14 none) :=
  ⟨rfl, (get_completed_calls_finalizer_once (UnaryFuture.new 7) 7 (some 5) .kError
      (sampleWorld 14) rfl (Or.inr rfl)).2.2.2.1,
    (get_completed_calls_finalizer_once (UnaryFuture.new 7) 7 (some 5) .kError
      (sampleWorld 14) rfl (Or.inr rfl)).2.2.1 _ rfl⟩

/-- Claim C9.  An Armed future whose call completes (the wait yields `kOk` or
`kError`): `Get()` returns normally if and only if the final status of the call
is a success status; otherwise it raises the typed RPC error carrying the call
name and that status code.  On success `OnSuccess` is recorded once and no
`OnError`; on failure `OnError` with that code is recorded once and no
`OnSuccess`; in both cases one statistics callback in all. -/
theorem get_returns_iff_status_ok (self : UnaryFuture) (data : DataId)
    (observed : WaitStatus) (w : World) (harmed : self.impl_ = some data)
    (hobs : observed = .kOk ∨ observed = .kError) :
    ((self.Get observed w).out = .returned () ↔ (w.heap data).status.ok = true) ∧
    ((w.heap data).status.ok = false →
      (self.Get observed w).out = .raised (.ErrorWithStatus (w.heap data).call_name
        (w.heap data).status.error_code (w.heap data).parsed_gstatus)) ∧
    (self.Get observed w).world.statistics data
      = w.statistics data ++
          [if (w.heap data).status.ok then .OnSuccess data
            else .OnError data (w.heap data).status.error_code] ∧
    (self.Get observed w).world.log.countP (Event.isOnSuccess data)
        + (self.Get observed w).world.log.countP (Event.isOnError data)
      = w.log.countP (Event.isOnSuccess data) + w.log.countP (Event.isOnError data) + 1 ∧
    (self.Get observed w).world.log.countP (Event.isOnSuccess data)
      = w.log.countP (Event.isOnSuccess data)
          + (if (w.heap data).status.ok then 1 else 0) := by
  obtain ⟨impl⟩ := self
  simp only at harmed
  subst harmed
  rw [Get_out, Get_world, GetDeadline_completed _ _ _ _ hobs]
  simp only [ProcessFinishResult_log, World.statistics]
  rcases hobs with h | h <;> subst h <;> cases hok : (w.heap data).status.ok <;>
    simp [List.countP_append, List.countP_cons, List.filter_append, List.filter_cons,
      Event.isStatistics, Event.isOnSuccess, Event.isOnError, Event.isOnCancelled] <;>
    omega

/-- Witness of C9: call 7 completes with status code 14 (unavailable); `Get()`
raises the error naming the call with code 14 and records one `OnError 14`. -/
theorem get_returns_iff_status_ok_witness :
    (UnaryFuture.new 7).impl_ = some 7 ∧
    ((UnaryFuture.new 7).Get .kOk (sampleWorld 14)).out
      = .raised (.ErrorWithStatus "svc/Method" 14 none) ∧
    ((UnaryFuture.new 7).Get .kOk (sampleWorld 14)).world.statistics 7
      = [.OnError 7 14] :=
  ⟨rfl, (get_returns_iff_status_ok (UnaryFuture.new 7) 7 .kOk (sampleWorld 14) rfl
      (Or.inl rfl)).2.1 rfl,
    (get_returns_iff_status_ok (UnaryFuture.new 7) 7 .kOk (sampleWorld 14) rfl
      (Or.inl rfl)).2.2.1⟩

/-- Claim C10.  Destroying a future finalizes if and only if the future is still
Armed.  The destructor of an Armed future acquires a guard, waits without
deadline on the finish operation, calls `ProcessFinishResult` once with
`isExplicitWait = false` and releases the guard still armed (no disarm).  The
destructor of a Finalized future logs nothing: no wait, no finalization, no
statistics update. -/
theorem destroy_finalizes_iff_armed (self : UnaryFuture) (observed : WaitStatus)
    (w : World) :
    (self.Destroy observed w).out = .returned () ∧
    (∀ d, (self.Destroy observed w).world.log.countP (Event.isProcessFinishResult d)
      = w.log.countP (Event.isProcessFinishResult d)
          + (if self.impl_ = some d then 1 else 0)) ∧
    ((∃ d, (self.Destroy observed w).world.log.countP (Event.isProcessFinishResult d)
      = w.log.countP (Event.isProcessFinishResult d) + 1) ↔ self.Armed) ∧
    (match self.impl_ with
      | some data =>
        (self.Destroy observed w).world.log
          = w.log ++ [.GuardAcquire data, .Wait data observed,
              .ProcessFinishResult data observed (w.heap data).status
                (w.heap data).parsed_gstatus false,
              if (w.heap data).status.ok then .OnSuccess data
                else .OnError data (w.heap data).status.error_code,
              .GuardRelease data true]
      | none => (self.Destroy observed w).world.log = w.log) := by
  obtain ⟨impl⟩ := self
  cases impl with
  | none =>
    rw [Destroy_finalized]
    simp [UnaryFuture.Armed]
  | some data =>
    rw [Destroy_armed]
    have hcount : ∀ d, (w.log ++ [Event.GuardAcquire data, Event.Wait data observed,
          Event.ProcessFinishResult data observed (w.heap data).status
            (w.heap data).parsed_gstatus false,
          if (w.heap data).status.ok then Event.OnSuccess data
            else Event.OnError data (w.heap data).status.error_code,
          Event.GuardRelease data true]).countP (Event.isProcessFinishResult d)
        = w.log.countP (Event.isProcessFinishResult d) + (if data = d then 1 else 0) := by
      intro d
      cases hok : (w.heap data).status.ok <;>
        by_cases hd : data = d <;>
        simp [List.countP_append, List.countP_cons, Event.isProcessFinishResult, hd]
    refine ⟨rfl, ?_, ?_, rfl⟩
    · intro d
      simpa using hcount d
    · simp only [UnaryFuture.Armed, Option.isSome_some, iff_true]
      exact ⟨data, by simpa using hcount data⟩

/-- Claim C11.  The destructor of an Armed future returns without raising and
without terminating, whatever its wait yields (cancelled included) and whatever
the status of the call: the statistics callback that goes with the status is
recorded, and an error is not raised.  `Get()` on the same future raises: the
status error when the call completed with a non-success status, the cancellation
error when the wait was cancelled. -/
theorem destroy_never_raises (self : UnaryFuture) (data : DataId)
    (observed : WaitStatus) (w : World) (harmed : self.impl_ = some data) :
    (self.Destroy observed w).out = .returned () ∧
    (self.Destroy observed w).world.statistics data
      = w.statistics data ++
          [if (w.heap data).status.ok then .OnSuccess data
            else .OnError data (w.heap data).status.error_code] ∧
    ((w.heap data).status.ok = false → observed = .kOk ∨ observed = .kError →
      (self.Get observed w).out = .raised (.ErrorWithStatus (w.heap data).call_name
        (w.heap data).status.error_code (w.heap data).parsed_gstatus)) ∧
    (observed = .kCancelled →
      (self.Get observed w).out
        = .raised (.RpcCancelledError (w.heap data).call_name "Get()")) := by
  obtain ⟨impl⟩ := self
  simp only at harmed
  subst harmed
  rw [Destroy_armed, Get_out]
  refine ⟨rfl, ?_, ?_, ?_⟩
  · cases hok : (w.heap data).status.ok <;>
      simp [World.statistics, List.filter_append, List.filter_cons, Event.isStatistics,
        Event.isOnSuccess, Event.isOnError, Event.isOnCancelled]
  · intro hok hobs
    rcases hobs with h | h <;> subst h <;> simp [hok]
  · intro h
    subst h
    rfl

/-- Witness of C11: call 7 finished with status code 14; the destructor returns
and records `OnError 14`, `Get()` raises. -/
theorem destroy_never_raises_witness :
    (UnaryFuture.new 7).impl_ = some 7 ∧
    ((UnaryFuture.new 7).Destroy .kOk (sampleWorld 14)).out = .returned () ∧
    ((UnaryFuture.new 7).Destroy .kOk (sampleWorld 14)).world.statistics 7
      = [.OnError 7 14] ∧
    ((UnaryFuture.new 7).Get .kOk (sampleWorld 14)).out
      = .raised (.ErrorWithStatus "svc/Method" 14 none) :=
  ⟨rfl, (destroy_never_raises (UnaryFuture.new 7) 7 .kOk (sampleWorld 14) rfl).1,
    (destroy_never_raises (UnaryFuture.new 7) 7 .kOk (sampleWorld 14) rfl).2.1,
    (destroy_never_raises (UnaryFuture.new 7) 7 .kOk (sampleWorld 14) rfl).2.2.1 rfl
      (Or.inl rfl)⟩

/-- Claim C18.  On an Armed future, when `Get(deadline)` returns `kCancelled` the
call state of the future has been cleared and the wait status was `kCancelled`;
so `Get()` never aborts on the assertion "Data should be cleaned up before
RpcCancelledError generation". -/
theorem cancelled_result_means_data_cleared (self : UnaryFuture) (data : DataId)
    (deadline : Deadline) (observed : WaitStatus) (w : World)
    (harmed : self.impl_ = some data) :
    ((self.GetDeadline deadline observed w).out = .returned .kCancelled →
      (self.GetDeadline deadline observed w).fut.impl_ = none ∧ observed = .kCancelled) ∧
    (observed = .kCancelled →
      (self.GetDeadline deadline observed w).out = .returned .kCancelled) ∧
    (self.Get observed w).out
      ≠ .aborted "Data should be cleaned up before RpcCancelledError generation" := by
  obtain ⟨impl⟩ := self
  simp only at harmed
  subst harmed
  rw [Get_out]
  refine ⟨?_, ?_, ?_⟩
  · cases observed with
    | kOk =>
      rw [GetDeadline_completed _ _ _ _ (Or.inl rfl), ProcessFinishResult_out]
      cases hok : (w.heap data).status.ok <;> simp
    | kError =>
      rw [GetDeadline_completed _ _ _ _ (Or.inr rfl), ProcessFinishResult_out]
      cases hok : (w.heap data).status.ok <;> simp
    | kCancelled =>
      rw [GetDeadline_cancelled]
      simp
    | kDeadline =>
      rw [GetDeadline_timeout]
      simp
  · intro h
    subst h
    rw [GetDeadline_cancelled]
  · cases observed <;> cases hok : (w.heap data).status.ok <;> simp

/-- Witness of C18: the wait of `Get(deadline)` on call 7 is cancelled. -/
theorem cancelled_result_means_data_cleared_witness :
    (UnaryFuture.new 7).impl_ = some 7 ∧
    ((UnaryFuture.new 7).GetDeadline (some 5) .kCancelled (sampleWorld 0)).fut.impl_ = none ∧
    ((UnaryFuture.new 7).Get .kCancelled (sampleWorld 0)).out
      ≠ .aborted "Data should be cleaned up before RpcCancelledError generation" :=
  ⟨rfl,
    ((cancelled_result_means_data_cleared (UnaryFuture.new 7) 7 (some 5) .kCancelled
      (sampleWorld 0) rfl).1 rfl).1,
    (cancelled_result_means_data_cleared (UnaryFuture.new 7) 7 (some 5) .kCancelled
      (sampleWorld 0) rfl).2.2⟩

/-! ## Move assignment -/

theorem MoveAssignSteps_distinct (this other : FutureAddr) (observed : WaitStatus)
    (s : Frame) (hne : this ≠ other) :
    UnaryFuture.MoveAssignSteps this other observed s
      = [⟨Frame.setFuture s.futures this ⟨none⟩, some ⟨(s.futures this).impl_⟩, s.world⟩,
         ⟨Frame.setFuture (Frame.setFuture (Frame.setFuture s.futures this ⟨none⟩) this
            ⟨(s.futures other).impl_⟩) other ⟨none⟩,
          some ⟨(s.futures this).impl_⟩, s.world⟩,
         ⟨Frame.setFuture (Frame.setFuture (Frame.setFuture s.futures this ⟨none⟩) this
            ⟨(s.futures other).impl_⟩) other ⟨none⟩,
          none, ((UnaryFuture.mk (s.futures this).impl_).Destroy observed s.world).world⟩] := by
  have hne' : ¬ other = this := fun h => hne h.symm
  simp [UnaryFuture.MoveAssignSteps, hne, hne', UnaryFuture.Move, Frame.setFuture]

theorem MoveAssign_distinct (this other : FutureAddr) (observed : WaitStatus)
    (s : Frame) (hne : this ≠ other) :
    UnaryFuture.MoveAssign this other observed s
      = (.returned (),
         ⟨Frame.setFuture (Frame.setFuture (Frame.setFuture s.futures this ⟨none⟩) this
            ⟨(s.futures other).impl_⟩) other ⟨none⟩,
          none, ((UnaryFuture.mk (s.futures this).impl_).Destroy observed s.world).world⟩) := by
  have hout : ((UnaryFuture.mk (s.futures this).impl_).Destroy observed s.world).out
      = .returned () := by
    cases h : (s.futures this).impl_ with
    | none => rw [Destroy_finalized]
    | some data => rw [Destroy_armed]
  simp [UnaryFuture.MoveAssign, hne, MoveAssignSteps_distinct, UnaryFuture.Move, hout]

/-- Claim C12, as stated, fails.  The future at address 0 holds call 1, the future
at address 1 holds call 2; in the assignment of the second to the first, the
state right after `impl_ = std::move(other.impl_)` has the first future holding
call 2 while neither the wait on call 1 nor its `ProcessFinishResult` has
happened. -/
theorem move_assign_finalizes_before_adoption_counterexample :
    ¬ FinalizedBeforeAdoption 0 1 .kOk (sampleFrame 0) 1 := by
  intro h
  have hsteps := MoveAssignSteps_distinct 0 1 .kOk (sampleFrame 0) (by decide)
  have hmem : (⟨Frame.setFuture (Frame.setFuture (Frame.setFuture (sampleFrame 0).futures 0
        ⟨none⟩) 0 ⟨((sampleFrame 0).futures 1).impl_⟩) 1 ⟨none⟩,
      some ⟨((sampleFrame 0).futures 0).impl_⟩, (sampleFrame 0).world⟩ : Frame)
      ∈ UnaryFuture.MoveAssignSteps 0 1 .kOk (sampleFrame 0) := by
    rw [hsteps]
    simp
  have hlog := (h _ hmem (by simp [Frame.setFuture, sampleFrame])).1
  simp [sampleFrame, sampleWorld] at hlog

/-- Claim C12, amended.  For distinct futures where `*this` still holds an armed
call `old`, the move assignment goes through three states: first the old call is
moved out of `*this` into the local `for_destruction`; then `*this` adopts the
state of `other`, with nothing logged yet, so the old call is not finalized at
that point; and when the scope is left the local is destroyed, which finalizes
the old call: its wait without deadline and one `ProcessFinishResult` with
`isExplicitWait = false`.  The assignment returns in that last state. -/
theorem move_assign_finalizes_old_call_after_adoption (this other : FutureAddr)
    (observed : WaitStatus) (s : Frame) (old : DataId) (hne : this ≠ other)
    (harmed : (s.futures this).impl_ = some old) :
    ∃ s1 s2 s3 : Frame,
      UnaryFuture.MoveAssignSteps this other observed s = [s1, s2, s3] ∧
      (s1.futures this).impl_ = none ∧ s1.for_destruction = some ⟨some old⟩ ∧
      s1.world.log = s.world.log ∧
      (s2.futures this).impl_ = (s.futures other).impl_ ∧
      s2.for_destruction = some ⟨some old⟩ ∧
      s2.world.log = s.world.log ∧
      (s3.futures this).impl_ = (s.futures other).impl_ ∧
      s3.for_destruction = none ∧
      s3.world.log
        = s.world.log ++ [.GuardAcquire old, .Wait old observed,
            .ProcessFinishResult old observed (s.world.heap old).status
              (s.world.heap old).parsed_gstatus false,
            if (s.world.heap old).status.ok then .OnSuccess old
              else .OnError old (s.world.heap old).status.error_code,
            .GuardRelease old true] ∧
      (UnaryFuture.MoveAssign this other observed s).2 = s3 ∧
      (UnaryFuture.MoveAssign this other observed s).1 = .returned () := by
  have hne' : ¬ other = this := fun h => hne h.symm
  rw [MoveAssignSteps_distinct _ _ _ _ hne, MoveAssign_distinct _ _ _ _ hne, harmed,
    Destroy_armed]
  refine ⟨_, _, _, rfl, ?_, rfl, rfl, ?_, rfl, rfl, ?_, rfl, rfl, rfl, rfl⟩ <;>
    simp [Frame.setFuture, hne, hne']

/-- Witness of C12 amended: the future at address 1 (call 2) is assigned to the
future at address 0 (call 1); at the end the first holds call 2 and the log is
the finalization of call 1. -/
theorem move_assign_finalizes_old_call_after_adoption_witness :
    (0 : FutureAddr) ≠ 1 ∧ ((sampleFrame 0).futures 0).impl_ = some 1 ∧
    (UnaryFuture.MoveAssign 0 1 .kOk (sampleFrame 0)).1 = .returned () ∧
    ∃ s1 s2 s3 : Frame,
      UnaryFuture.MoveAssignSteps 0 1 .kOk (sampleFrame 0) = [s1, s2, s3] ∧
      (s2.futures 0).impl_ = some 2 ∧ s2.world.log = [] ∧
      s3.world.log = [.GuardAcquire 1, .Wait 1 .kOk,
        .ProcessFinishResult 1 .kOk ⟨0, ""⟩ none false, .OnSuccess 1,
        .GuardRelease 1 true] := by
  obtain ⟨s1, s2, s3, hsteps, -, -, -, h2, -, h2log, -, -, h3log, -, hout⟩ :=
    move_assign_finalizes_old_call_after_adoption 0 1 .kOk (sampleFrame 0) 1
      (by decide) rfl
  exact ⟨by decide, rfl, hout, s1, s2, s3, hsteps, h2, h2log, h3log⟩

/-- Claim C19.  Move-assigning a future to itself is a no-op: the assignment
returns at once, goes through no step, and leaves every future and the world
(the log included: no wait, no finalization, no statistics update) as they
were. -/
theorem self_move_assign_is_noop (this : FutureAddr) (observed : WaitStatus) (s : Frame) :
    UnaryFuture.MoveAssign this this observed s = (.returned (), s) ∧
    UnaryFuture.MoveAssignSteps this this observed s = [] ∧
    ((UnaryFuture.MoveAssign this this observed s).2.futures this).impl_
      = (s.futures this).impl_ ∧
    (UnaryFuture.MoveAssign this this observed s).2.world.log = s.world.log := by
  simp [UnaryFuture.MoveAssign, UnaryFuture.MoveAssignSteps]

theorem sampleFrame_exclusive (code : Nat) : (sampleFrame code).Exclusive := by
  constructor
  · intro p q d hp hq
    simp only [sampleFrame] at hp hq
    by_cases hp0 : p = 0 <;> by_cases hp1 : p = 1 <;>
      by_cases hq0 : q = 0 <;> by_cases hq1 : q = 1 <;>
      simp_all
    all_goals exact absurd (hp.trans hq.symm) (by decide)
  · intro fd p d h
    simp [sampleFrame] at h

/-- Claim C13.  For distinct futures `*this` and `other`, in a state where no two
futures reference the same call state: after the move assignment `*this` holds
exactly the call state `other` held, `other` holds none and every other future
is as before; the call state `*this` held before, if any, is held by no future
and by no local, and exactly one finalization step was executed on it; and in
every state the assignment goes through, no two holders (futures or the local
`for_destruction`) reference the same call state. -/
theorem move_assign_transfers_ownership (this other : FutureAddr)
    (observed : WaitStatus) (s : Frame) (hne : this ≠ other)
    (hex : s.Exclusive) :
    ((UnaryFuture.MoveAssign this other observed s).2.futures this).impl_
      = (s.futures other).impl_ ∧
    ((UnaryFuture.MoveAssign this other observed s).2.futures other).impl_ = none ∧
    (∀ p, p ≠ this → p ≠ other →
      (UnaryFuture.MoveAssign this other observed s).2.futures p = s.futures p) ∧
    (UnaryFuture.MoveAssign this other observed s).2.for_destruction = none ∧
    (∀ old, (s.futures this).impl_ = some old →
      (∀ p, ((UnaryFuture.MoveAssign this other observed s).2.futures p).impl_ ≠ some old) ∧
      (UnaryFuture.MoveAssign this other observed s).2.world.log.countP
          (Event.isFinalization old)
        = s.world.log.countP (Event.isFinalization old) + 1) ∧
    (∀ frame ∈ UnaryFuture.MoveAssignSteps this other observed s, frame.Exclusive) := by
  have hne' : ¬ other = this := fun h => hne h.symm
  obtain ⟨hex1, -⟩ := hex
  rw [MoveAssign_distinct _ _ _ _ hne, MoveAssignSteps_distinct _ _ _ _ hne]
  refine ⟨?_, ?_, ?_, rfl, ?_, ?_⟩
  · simp [Frame.setFuture, hne]
  · simp [Frame.setFuture]
  · intro p hp1 hp2
    simp [Frame.setFuture, hp1, hp2]
  · intro old hold
    refine ⟨fun p hp => ?_, ?_⟩
    · by_cases hpo : p = other
      · subst hpo
        simp [Frame.setFuture] at hp
      · by_cases hpt : p = this
        · subst hpt
          simp [Frame.setFuture, hpo] at hp
          exact hne (hex1 _ _ _ hold hp)
        · simp [Frame.setFuture, hpo, hpt] at hp
          exact hpt (hex1 _ _ _ hp hold)
    · rw [hold]
      exact (Destroy_armed_counts old observed s.world).2
  · have hfut : ∀ p q d,
        (Frame.setFuture (Frame.setFuture (Frame.setFuture s.futures this ⟨none⟩) this
          ⟨(s.futures other).impl_⟩) other ⟨none⟩ p).impl_ = some d →
        (Frame.setFuture (Frame.setFuture (Frame.setFuture s.futures this ⟨none⟩) this
          ⟨(s.futures other).impl_⟩) other ⟨none⟩ q).impl_ = some d → p = q := by
      intro p q d hp hq
      by_cases hpo : p = other
      · subst hpo
        simp [Frame.setFuture] at hp
      · by_cases hqo : q = other
        · subst hqo
          simp [Frame.setFuture] at hq
        · by_cases hpt : p = this <;> by_cases hqt : q = this
          · rw [hpt, hqt]
          · subst hpt
            simp [Frame.setFuture, hpo, hqo, hqt] at hp hq
            exact absurd (hex1 _ _ _ hq hp) hqo
          · subst hqt
            simp [Frame.setFuture, hpo, hqo, hpt] at hp hq
            exact absurd (hex1 _ _ _ hp hq) hpo
          · simp [Frame.setFuture, hpo, hqo, hpt, hqt] at hp hq
            exact hex1 _ _ _ hp hq
    intro frame hmem
    simp only [List.mem_cons, List.mem_singleton, List.mem_nil_iff, or_false] at hmem
    rcases hmem with h | h | h
    · subst h
      constructor
      · intro p q d hp hq
        by_cases hpt : p = this
        · subst hpt
          simp [Frame.setFuture] at hp
        · by_cases hqt : q = this
          · subst hqt
            simp [Frame.setFuture] at hq
          · simp [Frame.setFuture, hpt, hqt] at hp hq
            exact hex1 _ _ _ hp hq
      · intro fd p d hfd hd hp
        simp only [Option.some.injEq] at hfd
        subst hfd
        simp only at hd
        by_cases hpt : p = this
        · subst hpt
          simp [Frame.setFuture] at hp
        · simp [Frame.setFuture, hpt] at hp
          exact hpt (hex1 _ _ _ hp hd)
    · subst h
      refine ⟨hfut, ?_⟩
      intro fd p d hfd hd hp
      simp only [Option.some.injEq] at hfd
      subst hfd
      simp only at hd
      by_cases hpo : p = other
      · subst hpo
        simp [Frame.setFuture] at hp
      · by_cases hpt : p = this
        · subst hpt
          simp [Frame.setFuture, hpo] at hp
          exact hne (hex1 _ _ _ hd hp)
        · simp [Frame.setFuture, hpo, hpt] at hp
          exact hpt (hex1 _ _ _ hp hd)
    · subst h
      refine ⟨hfut, ?_⟩
      intro fd p d hfd
      simp at hfd

/-- Witness of C13 on the sample state: the future at address 1 (call 2) is
assigned to the future at address 0 (call 1). -/
theorem move_assign_transfers_ownership_witness :
    (0 : FutureAddr) ≠ 1 ∧ (sampleFrame 0).Exclusive ∧
    ((UnaryFuture.MoveAssign 0 1 .kOk (sampleFrame 0)).2.futures 0).impl_ = some 2 ∧
    ((UnaryFuture.MoveAssign 0 1 .kOk (sampleFrame 0)).2.futures 1).impl_ = none ∧
    (UnaryFuture.MoveAssign 0 1 .kOk (sampleFrame 0)).2.world.log.countP
      (Event.isFinalization 1) = 1 :=
  ⟨by decide, sampleFrame_exclusive 0,
    (move_assign_transfers_ownership 0 1 .kOk (sampleFrame 0) (by decide)
      (sampleFrame_exclusive 0)).1,
    (move_assign_transfers_ownership 0 1 .kOk (sampleFrame 0) (by decide)
      (sampleFrame_exclusive 0)).2.1,
    ((move_assign_transfers_ownership 0 1 .kOk (sampleFrame 0) (by decide)
      (sampleFrame_exclusive 0)).2.2.2.2.1 1 rfl).2⟩

/-! ## `IsReady` -/

theorem Get_frame (self : UnaryFuture) (observed : WaitStatus) (heap : DataId → RpcData) :
    ∃ (out : Outcome Unit) (fut : UnaryFuture) (events : List Event),
      ∀ log, self.Get observed ⟨heap, log⟩ = ⟨out, fut, ⟨heap, log ++ events⟩⟩ := by
  obtain ⟨impl⟩ := self
  cases impl with
  | none =>
    exact ⟨.aborted "'Get' should not be called after readiness", ⟨none⟩, [],
      fun log => by rw [Get_finalized]; simp⟩
  | some data =>
    obtain ⟨out, fut, events, hget⟩ := GetDeadline_frame ⟨some data⟩ none observed heap
    refine ⟨((UnaryFuture.mk (some data)).Get observed ⟨heap, []⟩).out, fut, events,
      fun log => ?_⟩
    have heta : (UnaryFuture.mk (some data)).Get observed ⟨heap, log⟩
        = ⟨((UnaryFuture.mk (some data)).Get observed ⟨heap, log⟩).out,
           ((UnaryFuture.mk (some data)).Get observed ⟨heap, log⟩).fut,
           ((UnaryFuture.mk (some data)).Get observed ⟨heap, log⟩).world⟩ := rfl
    rw [heta, Get_out, Get_out, Get_fut, Get_world, hget log]

theorem IsReadys_armed (data : DataId) (n : Nat) (ops : Operations) :
    ∀ w : World, (UnaryFuture.mk (some data)).IsReadys n ops w
      = (⟨.returned (), ⟨some data⟩,
          ⟨w.heap, w.log ++ List.replicate n (.IsReady (some data) (ops data).IsReady)⟩⟩,
         ops) := by
  induction n with
  | zero => intro w; simp [UnaryFuture.IsReadys]
  | succ n ih =>
    intro w
    simp only [UnaryFuture.IsReadys, UnaryFuture.IsReady, World.emit]
    rw [ih]
    simp [List.replicate_succ]

theorem IsReadys_finalized (n : Nat) (ops : Operations) (w : World) :
    (UnaryFuture.mk none).IsReadys (n + 1) ops w
      = (⟨.aborted "IsReady: the call state has been cleared", ⟨none⟩, w⟩, ops) := by
  simp [UnaryFuture.IsReadys, UnaryFuture.IsReady]

theorem statistics_of_polls (d : DataId) (data : Option DataId) (polled : Bool) (n : Nat) :
    (List.replicate n (Event.IsReady data polled)).filter (Event.isStatistics d) = [] := by
  induction n with
  | zero => simp
  | succ n ih =>
    simp [List.replicate_succ, List.filter_cons, ih, Event.isStatistics, Event.isOnSuccess,
      Event.isOnError, Event.isOnCancelled]

/-- Claim C14, as stated, fails for a Finalized future.  The future of call 7 is
Finalized by a `Get(deadline)` that completed; one call of `IsReady()` on it is
not a peek that returns: it fails the precondition on the cleared call state. -/
theorem is_ready_on_finalized_future_counterexample :
    ((UnaryFuture.new 7).GetDeadline (some 5) .kOk (sampleWorld 0)).fut.Finalized ∧
    (((UnaryFuture.new 7).GetDeadline (some 5) .kOk (sampleWorld 0)).fut.IsReadys 1
        (fun _ => .observed)
        ((UnaryFuture.new 7).GetDeadline (some 5) .kOk (sampleWorld 0)).world).1.out
      = .aborted "IsReady: the call state has been cleared" ∧
    ¬ IsReadyPeeks ((UnaryFuture.new 7).GetDeadline (some 5) .kOk (sampleWorld 0)).fut 1
        (some 5) .kOk (fun _ => .observed)
        ((UnaryFuture.new 7).GetDeadline (some 5) .kOk (sampleWorld 0)).world := by
  have hfut : ((UnaryFuture.new 7).GetDeadline (some 5) .kOk (sampleWorld 0)).fut
      = ⟨none⟩ := rfl
  rw [hfut]
  refine ⟨rfl, ?_, ?_⟩
  · rw [IsReadys_finalized]
  · intro h
    have hout := h.1
    rw [IsReadys_finalized] at hout
    simp at hout

/-- Claim C14, amended.  On an Armed future, any number of `IsReady()` calls are
made and return, each reporting whether the completion of the finish operation
is there; they leave the future as it was, so Armed, the completion of every
operation unconsumed and the statistics as they were, logging only the polls;
and a following `Get(deadline)` or `Get()`, its wait decided by the state of the
operation, has the same outcome, leaves the same future and the same operations
and logs the same events as without the calls.  On a Finalized future `IsReady()`
fails the precondition on the cleared call state; the future stays Finalized,
the operations and the world are as before. -/
theorem is_ready_peeks_while_armed (self : UnaryFuture) (data : DataId) (n : Nat)
    (deadline : Deadline) (blocked : WaitStatus) (ops : Operations) (w : World)
    (harmed : self.impl_ = some data) :
    IsReadyPeeks self n deadline blocked ops w ∧
    (self.IsReady ops w).1.out = .returned (ops data).IsReady ∧
    (self.IsReadys n ops w).1.fut.Armed ∧
    (self.IsReadys n ops w).1.world.log
      = w.log ++ List.replicate n (.IsReady (some data) (ops data).IsReady) ∧
    (∀ (ops0 : Operations) (w0 : World),
      (UnaryFuture.mk none).IsReady ops0 w0
        = (⟨.aborted "IsReady: the call state has been cleared", ⟨none⟩, w0⟩, ops0)) ∧
    (∀ (k : Nat) (ops0 : Operations) (w0 : World),
      (UnaryFuture.mk none).IsReadys (k + 1) ops0 w0
        = (⟨.aborted "IsReady: the call state has been cleared", ⟨none⟩, w0⟩, ops0)) := by
  obtain ⟨impl⟩ := self
  simp only at harmed
  subst harmed
  refine ⟨?_, ?_, ?_, ?_, fun ops0 w0 => ?_, fun k ops0 w0 => IsReadys_finalized k ops0 w0⟩
  · unfold IsReadyPeeks
    rw [IsReadys_armed]
    refine ⟨rfl, rfl, rfl, fun d => ?_, ?_, ?_⟩
    · simp [World.statistics, List.filter_append, statistics_of_polls]
    · obtain ⟨out, fut, events, hget⟩ := GetDeadline_frame ⟨some data⟩ deadline
        (ops.WaitFor ⟨some data⟩ blocked).1 w.heap
      refine ⟨out, fut, (ops.WaitFor ⟨some data⟩ blocked).2, events, ?_, ?_⟩
      · simp only [UnaryFuture.GetDeadlineOn]
        rw [show w = (⟨w.heap, w.log⟩ : World) from rfl, hget w.log]
      · simp only [UnaryFuture.GetDeadlineOn]
        rw [hget]
    · obtain ⟨out, fut, events, hget⟩ := Get_frame ⟨some data⟩
        (ops.WaitFor ⟨some data⟩ blocked).1 w.heap
      refine ⟨out, fut, (ops.WaitFor ⟨some data⟩ blocked).2, events, ?_, ?_⟩
      · simp only [UnaryFuture.GetOn]
        rw [show w = (⟨w.heap, w.log⟩ : World) from rfl, hget w.log]
      · simp only [UnaryFuture.GetOn]
        rw [hget]
  · simp [UnaryFuture.IsReady]
  · rw [IsReadys_armed]
    rfl
  · rw [IsReadys_armed]
  · simp [UnaryFuture.IsReady]

/-- Witness of C14 amended: call 7 has completed with success and nobody has
observed it; after three polls, which report true, `Get(deadline)` observes `kOk`
and returns `kReady`, as it does without the polls, although its wait would
otherwise end by the deadline. -/
theorem is_ready_peeks_while_armed_witness :
    (UnaryFuture.new 7).impl_ = some 7 ∧
    IsReadyPeeks (UnaryFuture.new 7) 3 (some 5) .kDeadline (fun _ => .signalled true)
      (sampleWorld 0) ∧
    ((UnaryFuture.new 7).IsReady (fun _ => .signalled true) (sampleWorld 0)).1.out
      = .returned true ∧
    (((UnaryFuture.new 7).IsReadys 3 (fun _ => .signalled true)
        (sampleWorld 0)).1.fut.GetDeadlineOn (some 5) .kDeadline
      ((UnaryFuture.new 7).IsReadys 3 (fun _ => .signalled true) (sampleWorld 0)).2
      ((UnaryFuture.new 7).IsReadys 3 (fun _ => .signalled true)
        (sampleWorld 0)).1.world).1.out = .returned .kReady :=
  ⟨rfl,
    (is_ready_peeks_while_armed (UnaryFuture.new 7) 7 3 (some 5) .kDeadline
      (fun _ => .signalled true) (sampleWorld 0) rfl).1,
    (is_ready_peeks_while_armed (UnaryFuture.new 7) 7 3 (some 5) .kDeadline
      (fun _ => .signalled true) (sampleWorld 0) rfl).2.1,
    rfl⟩

/-! ## Middleware chain -/

theorem Next_all_continue (mws : List Middleware) :
    ∀ cursor, (∀ mw ∈ mws, mw.invokes_continue = true) →
      MiddlewareCallContext.Next mws cursor
        = (List.range' cursor mws.length).map ChainEvent.Handle ++ [.UserCall] := by
  induction mws with
  | nil => intro cursor _; simp [MiddlewareCallContext.Next]
  | cons mw rest ih =>
    intro cursor hall
    have hmw : mw.invokes_continue = true := hall mw (List.mem_cons_self _ _)
    have hrest : ∀ m ∈ rest, m.invokes_continue = true :=
      fun m hm => hall m (List.mem_cons_of_mem _ hm)
    simp [MiddlewareCallContext.Next, hmw, ih (cursor + 1) hrest, List.range'_succ]

theorem Next_stops_at_first (mws : List Middleware) :
    ∀ (cursor i : Nat) (mw : Middleware), mws[i]? = some mw → mw.invokes_continue = false →
      (∀ m ∈ mws.take i, m.invokes_continue = true) →
      MiddlewareCallContext.Next mws cursor
        = (List.range' cursor (i + 1)).map ChainEvent.Handle := by
  induction mws with
  | nil => intro cursor i mw hi; simp at hi
  | cons head rest ih =>
    intro cursor i mw hi hstop hprefix
    cases i with
    | zero =>
      simp only [List.getElem?_cons_zero, Option.some.injEq] at hi
      subst hi
      simp [MiddlewareCallContext.Next, hstop, List.range'_succ]
    | succ i =>
      simp only [List.getElem?_cons_succ] at hi
      have hhead : head.invokes_continue = true :=
        hprefix head (by simp [List.take_succ_cons])
      have hrest : ∀ m ∈ rest.take i, m.invokes_continue = true :=
        fun m hm => hprefix m (by simp [List.take_succ_cons, hm])
      rw [List.range'_succ]
      simp [MiddlewareCallContext.Next, hhead, ih (cursor + 1) i mw hi hstop hrest]

theorem Next_nothing_after_stop (mws : List Middleware) :
    ∀ (cursor i : Nat) (mw : Middleware), mws[i]? = some mw → mw.invokes_continue = false →
      ChainEvent.UserCall ∉ MiddlewareCallContext.Next mws cursor ∧
      ∀ j, cursor + i < j → ChainEvent.Handle j ∉ MiddlewareCallContext.Next mws cursor := by
  induction mws with
  | nil => intro cursor i mw hi; simp at hi
  | cons head rest ih =>
    intro cursor i mw hi hstop
    cases i with
    | zero =>
      simp only [List.getElem?_cons_zero, Option.some.injEq] at hi
      subst hi
      refine ⟨by simp [MiddlewareCallContext.Next, hstop], fun j hj => ?_⟩
      simp [MiddlewareCallContext.Next, hstop]
      omega
    | succ i =>
      simp only [List.getElem?_cons_succ] at hi
      obtain ⟨huser, hlater⟩ := ih (cursor + 1) i mw hi hstop
      cases hhead : head.invokes_continue with
      | false =>
        refine ⟨by simp [MiddlewareCallContext.Next, hhead], fun j hj => ?_⟩
        simp [MiddlewareCallContext.Next, hhead]
        omega
      | true =>
        refine ⟨by simp [MiddlewareCallContext.Next, hhead, huser], fun j hj => ?_⟩
        have hne : j ≠ cursor := by omega
        have := hlater j (by omega)
        simp [MiddlewareCallContext.Next, hhead, hne, this]

/-- Claim C15.  For a chain in which every interceptor invokes continue,
`CallMiddlewares` executes the interceptors at positions 0, 1, ... in
registration order, each once, and then the user body once, as the final link;
for the empty chain it executes the user body alone, once. -/
theorem call_middlewares_runs_chain_then_body (mws : List Middleware)
    (hall : ∀ mw ∈ mws, mw.invokes_continue = true) :
    CallMiddlewares mws = (List.range mws.length).map ChainEvent.Handle ++ [.UserCall] ∧
    (∀ i, i < mws.length → (CallMiddlewares mws).count (.Handle i) = 1) ∧
    (CallMiddlewares mws).count .UserCall = 1 ∧
    CallMiddlewares [] = [.UserCall] := by
  have hrun : CallMiddlewares mws
      = (List.range mws.length).map ChainEvent.Handle ++ [.UserCall] := by
    rw [CallMiddlewares, Next_all_continue mws 0 hall, List.range_eq_range']
  have hinj : Function.Injective ChainEvent.Handle := fun a b h => by
    injection h
  refine ⟨hrun, fun i hi => ?_, ?_, rfl⟩
  · rw [hrun, List.count_append, List.count_map_of_injective _ _ hinj,
      List.count_eq_one_of_mem (List.nodup_range _) (List.mem_range.mpr hi)]
    simp
  · rw [hrun, List.count_append]
    have : List.count ChainEvent.UserCall
        ((List.range mws.length).map ChainEvent.Handle) = 0 := by
      rw [List.count_eq_zero]
      simp
    simp [this]

/-- Witness of C15: a chain of two interceptors that both invoke continue. -/
theorem call_middlewares_runs_chain_then_body_witness :
    (∀ mw ∈ ([⟨true⟩, ⟨true⟩] : List Middleware), mw.invokes_continue = true) ∧
    CallMiddlewares [⟨true⟩, ⟨true⟩] = [.Handle 0, .Handle 1, .UserCall] :=
  ⟨by decide, (call_middlewares_runs_chain_then_body [⟨true⟩, ⟨true⟩] (by decide)).1⟩

/-- Claim C16, as stated, fails.  In a chain of two interceptors that both do not
invoke continue, the interceptor at position 1 does not invoke continue, and
`CallMiddlewares` executes the interceptor at position 0 only, not those at
positions 0 and 1. -/
theorem call_middlewares_stops_at_any_counterexample :
    ([⟨false⟩, ⟨false⟩] : List Middleware)[1]? = some ⟨false⟩ ∧
    CallMiddlewares [⟨false⟩, ⟨false⟩] = [.Handle 0] ∧
    CallMiddlewares [⟨false⟩, ⟨false⟩] ≠ (List.range (1 + 1)).map ChainEvent.Handle := by
  decide

/-- Claim C16, amended.  If the interceptor at position `i` does not invoke
continue and every interceptor before it does, `CallMiddlewares` executes
exactly the interceptors at positions 0 to `i`, in order; and whenever the
interceptor at position `i` does not invoke continue, neither the user body nor
any interceptor after position `i` is executed. -/
theorem call_middlewares_stops_at_first (mws : List Middleware) (i : Nat)
    (mw : Middleware) (hi : mws[i]? = some mw) (hstop : mw.invokes_continue = false) :
    ((∀ m ∈ mws.take i, m.invokes_continue = true) →
      CallMiddlewares mws = (List.range (i + 1)).map ChainEvent.Handle) ∧
    ChainEvent.UserCall ∉ CallMiddlewares mws ∧
    ∀ j, i < j → ChainEvent.Handle j ∉ CallMiddlewares mws := by
  refine ⟨fun hprefix => ?_, (Next_nothing_after_stop mws 0 i mw hi hstop).1, fun j hj => ?_⟩
  · rw [CallMiddlewares, Next_stops_at_first mws 0 i mw hi hstop hprefix,
      List.range_eq_range']
  · exact (Next_nothing_after_stop mws 0 i mw hi hstop).2 j (by omega)

/-- Witness of C16 amended: the interceptor at position 2 is the first that does
not invoke continue. -/
theorem call_middlewares_stops_at_first_witness :
    ([⟨true⟩, ⟨true⟩, ⟨false⟩, ⟨true⟩] : List Middleware)[2]? = some ⟨false⟩ ∧
    (⟨false⟩ : Middleware).invokes_continue = false ∧
    CallMiddlewares [⟨true⟩, ⟨true⟩, ⟨false⟩, ⟨true⟩]
      = [.Handle 0, .Handle 1, .Handle 2] :=
  ⟨by decide, rfl,
    (call_middlewares_stops_at_first [⟨true⟩, ⟨true⟩, ⟨false⟩, ⟨true⟩] 2 ⟨false⟩
      (by decide) rfl).1 (by decide)⟩

end ugrpc.client

namespace formats.json

/-! ## The deep JSON document -/

theorem copies_length (n : Nat) (piece : String) :
    (copies n piece).length = n * piece.length := by
  induction n with
  | zero => simp [copies]
  | succ n ih => rw [copies, String.length_append, ih]; ring

theorem appendTimes_eq (max_size : Nat) (piece : String) (n : Nat) :
    ∀ str : StdString, str.chars.length ≤ max_size →
      appendTimes max_size piece n str
        = if str.chars.length + n * piece.length ≤ max_size then
            some ⟨str.reserved, str.chars ++ copies n piece⟩
          else none := by
  induction n with
  | zero =>
    intro str hlen
    simp [appendTimes, copies, hlen]
  | succ n ih =>
    intro str hlen
    by_cases hfirst : str.chars.length + piece.length ≤ max_size
    · have hnext := ih ⟨str.reserved, str.chars ++ piece⟩
        (by simpa [String.length_append] using hfirst)
      simp only [appendTimes, StdString.append, hfirst, if_true, Option.some_bind, hnext,
        String.length_append, copies, String.append_assoc]
      have hiff : (str.chars.length + piece.length + n * piece.length ≤ max_size)
          ↔ (str.chars.length + (n + 1) * piece.length ≤ max_size) := by
        constructor <;> intro h <;> nlinarith
      simp only [hiff]
    · have hfail : ¬ str.chars.length + (n + 1) * piece.length ≤ max_size := by
        intro h
        apply hfirst
        nlinarith
      simp [appendTimes, StdString.append, hfirst, hfail]

theorem MakeStringOfDeepObject_eq (max_size depth : Nat) (hmax : max_size < 2 ^ 64) :
    MakeStringOfDeepObject max_size depth
      = if 6 * depth + 1 ≤ max_size then
          some ⟨6 * depth + 1, copies depth "\x7b\"a\":" ++ "1" ++ copies depth "\x7d"⟩
        else none := by
  have hopen : "\x7b\"a\":".length = 5 := by decide
  have hclose : "\x7d".length = 1 := by decide
  have hone : "1".length = 1 := by decide
  by_cases hfit : 6 * depth + 1 ≤ max_size
  · have hmod : (depth * 6 + 1) % 2 ^ 64 = 6 * depth + 1 := by
      rw [Nat.mod_eq_of_lt (by omega)]
      ring
    have h1 := appendTimes_eq max_size "\x7b\"a\":" depth ⟨6 * depth + 1, ""⟩ (by simp)
    have h2 := appendTimes_eq max_size "\x7d" depth
      ⟨6 * depth + 1, "" ++ copies depth "\x7b\"a\":" ++ "1"⟩
      (by simp only [String.length_append, copies_length, hopen, hone]; simp; omega)
    simp only [String.length_append, copies_length, hopen, hclose, hone] at h1 h2
    have hc1 : ("".length + depth * 5 ≤ max_size) := by simp; omega
    have hc2 : ("".length + depth * 5 + 1 + depth * 1 ≤ max_size) := by simp; omega
    have hc3 : ((copies depth "\x7b\"a\":").length + 1 ≤ max_size) := by
      simp only [copies_length, hopen]; omega
    rw [if_pos hc1] at h1
    rw [if_pos hc2] at h2
    simp only [String.empty_append] at h1 h2
    simp only [MakeStringOfDeepObject, StdString.reserve, hmod, hfit, if_true,
      Option.some_bind, h1, StdString.append, hone, hc3, h2]
  · rw [if_neg hfit]
    by_cases hres : (depth * 6 + 1) % 2 ^ 64 ≤ max_size
    · have h1 := appendTimes_eq max_size "\x7b\"a\":" depth
        ⟨(depth * 6 + 1) % 2 ^ 64, ""⟩ (by simp)
      simp only [MakeStringOfDeepObject, StdString.reserve, hres, if_true,
        Option.some_bind, h1]
      by_cases hc1 : "".length + depth * "\x7b\"a\":".length ≤ max_size
      · rw [if_pos hc1]
        simp only [Option.some_bind, StdString.append]
        by_cases hc3 : ("" ++ copies depth "\x7b\"a\":").length + "1".length ≤ max_size
        · rw [if_pos hc3]
          simp only [Option.some_bind]
          have h2 := appendTimes_eq max_size "\x7d" depth
            ⟨(depth * 6 + 1) % 2 ^ 64, "" ++ copies depth "\x7b\"a\":" ++ "1"⟩
            (by simpa [String.length_append] using hc3)
          rw [h2, if_neg]
          simp only [String.length_append, copies_length, hopen, hclose, hone]
          simp
          omega
        · rw [if_neg hc3]
          rfl
      · rw [if_neg hc1]
        rfl
    · rw [MakeStringOfDeepObject, StdString.reserve, if_neg hres]
      rfl

theorem scanBraces_append (a b : List Char) :
    ∀ current deepest, scanBraces (a ++ b) current deepest
      = (scanBraces a current deepest).bind fun r => scanBraces b r.1 r.2 := by
  induction a with
  | nil => intro current deepest; simp [scanBraces]
  | cons c cs ih =>
    intro current deepest
    simp only [List.cons_append, scanBraces]
    split
    · exact ih _ _
    · split
      · split
        · rfl
        · exact ih _ _
      · exact ih _ _

theorem scanBraces_opens (n : Nat) :
    ∀ current deepest, current ≤ deepest →
      scanBraces (copies n "\x7b\"a\":").data current deepest
        = some (current + n, max deepest (current + n)) := by
  induction n with
  | zero =>
    intro current deepest h
    simp [copies, scanBraces, h]
  | succ n ih =>
    intro current deepest h
    have hpiece : scanBraces "\x7b\"a\":".data current deepest
        = some (current + 1, max deepest (current + 1)) := by
      have hdata : "\x7b\"a\":".data = [Char.ofNat 123, '"', 'a', '"', ':'] := by decide
      rw [hdata]
      simp [scanBraces]
    rw [copies, String.data_append, scanBraces_append, hpiece]
    simp only [Option.some_bind]
    rw [ih _ _ (by omega)]
    congr 2 <;> omega

theorem scanBraces_closes (n : Nat) :
    ∀ current deepest,
      scanBraces (copies n "\x7d").data (current + n) deepest = some (current, deepest) := by
  induction n with
  | zero =>
    intro current deepest
    simp [copies, scanBraces]
  | succ n ih =>
    intro current deepest
    have hdata : "\x7d".data = [Char.ofNat 125] := by decide
    rw [copies, String.data_append, hdata]
    have hpos : ¬ current + (n + 1) = 0 := by omega
    simp only [List.singleton_append, scanBraces, if_true, if_neg hpos]
    have : current + (n + 1) - 1 = current + n := by omega
    rw [this]
    exact ih current deepest

theorem nestingDepth_deep (depth : Nat) :
    nestingDepth (copies depth "\x7b\"a\":" ++ "1" ++ copies depth "\x7d") = some depth := by
  have hone : scanBraces "1".data depth depth = some (depth, depth) := by
    have hdata : "1".data = ['1'] := by decide
    rw [hdata]
    simp [scanBraces]
  have hopens := scanBraces_opens depth 0 0 (le_refl 0)
  have hcloses := scanBraces_closes depth 0 depth
  simp only [Nat.zero_add, zero_le, max_eq_right] at hopens hcloses
  simp only [nestingDepth, String.data_append, scanBraces_append, hopens, Option.some_bind,
    hone, hcloses]

/-- Claim C20.  For every depth, `std::string::max_size()` being a `std::size_t`
value: `MakeStringOfDeepObject(depth)` returns whenever a string of `6 * depth + 1`
characters is allowed, and what it returns is `depth` copies of the opening
piece (brace, quoted key a, colon), then the character 1, then `depth` closing
braces; its length is `6 * depth + 1`, which is the capacity reserved up front;
its braces are balanced, with nesting depth `depth`. -/
theorem make_string_of_deep_object_shape (max_size depth : Nat)
    (hmax : max_size < 2 ^ 64) :
    (6 * depth + 1 ≤ max_size → ∃ str, MakeStringOfDeepObject max_size depth = some str) ∧
    ∀ str, MakeStringOfDeepObject max_size depth = some str →
      str.chars = copies depth "\x7b\"a\":" ++ "1" ++ copies depth "\x7d" ∧
      str.chars.length = 6 * depth + 1 ∧
      str.reserved = str.chars.length ∧
      nestingDepth str.chars = some depth := by
  rw [MakeStringOfDeepObject_eq max_size depth hmax]
  constructor
  · intro hfit
    exact ⟨_, if_pos hfit⟩
  · intro str hstr
    by_cases hfit : 6 * depth + 1 ≤ max_size
    · rw [if_pos hfit] at hstr
      simp only [Option.some.injEq] at hstr
      subst hstr
      have hlen : (copies depth "\x7b\"a\":" ++ "1" ++ copies depth "\x7d").length
          = 6 * depth + 1 := by
        have hopen : "\x7b\"a\":".length = 5 := by decide
        have hclose : "\x7d".length = 1 := by decide
        have hone : "1".length = 1 := by decide
        simp only [String.length_append, copies_length, hopen, hclose, hone]
        omega
      exact ⟨rfl, hlen, hlen.symm, nestingDepth_deep depth⟩
    · rw [if_neg hfit] at hstr
      exact absurd hstr (by simp)

/-- Witness of C20 at depth 3. -/
theorem make_string_of_deep_object_shape_witness :
    (2 ^ 62 < 2 ^ 64) ∧
    MakeStringOfDeepObject (2 ^ 62) 3
      = some ⟨19, "\x7b\"a\":\x7b\"a\":\x7b\"a\":1\x7d\x7d\x7d"⟩ ∧
    nestingDepth "\x7b\"a\":\x7b\"a\":\x7b\"a\":1\x7d\x7d\x7d" = some 3 :=
  ⟨by decide, by decide,
    ((make_string_of_deep_object_shape (2 ^ 62) 3 (by decide)).2
      ⟨19, "\x7b\"a\":\x7b\"a\":\x7b\"a\":1\x7d\x7d\x7d"⟩ (by decide)).2.2.2⟩

/-- Claim C17, on the code.  The document `str_deep_json` that the `DeepJson`
benchmark parses is built with `kDepth = 127`: it is 127 copies of the opening
piece (brace, quoted key a, colon), the value 1 and 127 closing braces, 763
characters, 127 levels deep, not 500. -/
theorem deep_json_has_127_levels (max_size : Nat) (hmin : 763 ≤ max_size)
    (hmax : max_size < 2 ^ 64) :
    ∃ str, str_deep_json max_size = some str ∧
      str.chars = copies 127 "\x7b\"a\":" ++ "1" ++ copies 127 "\x7d" ∧
      str.chars.length = 763 ∧
      nestingDepth str.chars = some 127 ∧
      nestingDepth str.chars ≠ some 500 := by
  have hrun : str_deep_json max_size
      = some ⟨763, copies 127 "\x7b\"a\":" ++ "1" ++ copies 127 "\x7d"⟩ := by
    rw [str_deep_json, kDepth, MakeStringOfDeepObject_eq max_size 127 hmax, if_pos (by omega)]
  refine ⟨_, hrun, rfl, ?_, nestingDepth_deep 127, ?_⟩
  · have hopen : "\x7b\"a\":".length = 5 := by decide
    have hclose : "\x7d".length = 1 := by decide
    have hone : "1".length = 1 := by decide
    simp only [String.length_append, copies_length, hopen, hclose, hone]
  · rw [nestingDepth_deep 127]
    decide

/-- Witness of C17 with `max_size()` at 2^62. -/
theorem deep_json_has_127_levels_witness :
    (763 ≤ 2 ^ 62 ∧ 2 ^ 62 < 2 ^ 64) ∧
    ∃ str, str_deep_json (2 ^ 62) = some str ∧ nestingDepth str.chars = some 127 ∧
      nestingDepth str.chars ≠ some 500 := by
  obtain ⟨str, hrun, -, -, hdepth, hne⟩ :=
    deep_json_has_127_levels (2 ^ 62) (by decide) (by decide)
  exact ⟨by decide, str, hrun, hdepth, hne⟩

end formats.json
